import Mathlib

set_option maxHeartbeats 1000000

/-!
Verification of the storage / MVCC / SQL core of a small relational
database (a bitcask-style KV store with an MVCC layer, an
order-preserving key codec, and a SQL executor).  Byte strings are
modelled as lists of natural numbers (each byte being smaller than
256 wherever it matters), machine integers as natural numbers taken
modulo two to the 64, and fallible code as Except / Option values.
-/

namespace SqlDb

/-- Byte strings (Rust Vec of u8); each entry is a byte value. -/
abbrev Bytes := List Nat

/-- Errors of the database core (src/error.rs); message strings dropped. -/
inductive DbError where
  | parse : DbError
  | internal : DbError
  | writeConflict : DbError
deriving DecidableEq, Repr

/-- Lexicographic comparison of byte strings, the order used by the
BTreeMap-backed engines on Vec of u8 keys. -/
def bytesCmp : Bytes → Bytes → Ordering
  | [], [] => .eq
  | [], _ :: _ => .lt
  | _ :: _, [] => .gt
  | a :: as, b :: bs => if a < b then .lt else if b < a then .gt else bytesCmp as bs

theorem bytesCmp_self (a : Bytes) : bytesCmp a a = .eq := by
  induction a with
  | nil => rfl
  | cons x xs ih => simp [bytesCmp, ih]

theorem bytesCmp_eq_iff (a b : Bytes) : bytesCmp a b = .eq ↔ a = b := by
  induction a generalizing b with
  | nil => cases b <;> simp [bytesCmp]
  | cons x xs ih =>
    cases b with
    | nil => simp [bytesCmp]
    | cons y ys =>
      by_cases h1 : x < y
      · simp only [bytesCmp, if_pos h1]
        constructor
        · intro h; cases h
        · rintro ⟨⟩; omega
      · by_cases h2 : y < x
        · simp only [bytesCmp, if_neg h1, if_pos h2]
          constructor
          · intro h; cases h
          · rintro ⟨⟩; omega
        · have hxy : x = y := by omega
          subst hxy
          simp [bytesCmp, ih]

theorem bytesCmp_swap (a b : Bytes) : (bytesCmp a b).swap = bytesCmp b a := by
  induction a generalizing b with
  | nil => cases b <;> rfl
  | cons x xs ih =>
    cases b with
    | nil => rfl
    | cons y ys =>
      by_cases h1 : x < y
      · have h2 : ¬ y < x := by omega
        simp [bytesCmp, h1, h2, Ordering.swap]
      · by_cases h2 : y < x
        · simp [bytesCmp, h1, h2, Ordering.swap]
        · simp [bytesCmp, h1, h2, ih]

theorem bytesCmp_lt_trans {a b c : Bytes} (hab : bytesCmp a b = .lt)
    (hbc : bytesCmp b c = .lt) : bytesCmp a c = .lt := by
  induction a generalizing b c with
  | nil =>
    cases b with
    | nil => cases hab
    | cons y ys =>
      cases c with
      | nil => cases hbc
      | cons z zs => rfl
  | cons x xs ih =>
    cases b with
    | nil => cases hab
    | cons y ys =>
      cases c with
      | nil => cases hbc
      | cons z zs =>
        simp only [bytesCmp] at hab hbc ⊢
        by_cases h1 : x < y
        · by_cases h2 : y < z
          · have : x < z := by omega
            simp [this]
          · by_cases h3 : z < y
            · simp only [if_neg h2, if_pos h3] at hbc; cases hbc
            · have : y = z := by omega
              subst this
              simp [h1]
        · by_cases h2 : y < x
          · simp only [if_neg h1, if_pos h2] at hab; cases hab
          · have hxy : x = y := by omega
            subst hxy
            simp only [if_neg h1, if_neg h2] at hab
            by_cases h3 : x < z
            · simp [h3]
            · by_cases h4 : z < x
              · simp only [if_neg h3, if_pos h4] at hbc; cases hbc
              · simp only [if_neg h3, if_neg h4] at hbc ⊢
                exact ih hab hbc

theorem bytesCmp_ne_gt_iff (a b : Bytes) :
    bytesCmp a b ≠ .gt ↔ (bytesCmp a b = .lt ∨ a = b) := by
  rcases h : bytesCmp a b with _ | _ | _
  · simp [← bytesCmp_eq_iff a b, h]
  · simp [← bytesCmp_eq_iff a b, h]
  · simp [← bytesCmp_eq_iff a b, h]

theorem bytesCmp_le_trans {a b c : Bytes} (hab : bytesCmp a b ≠ .gt)
    (hbc : bytesCmp b c ≠ .gt) : bytesCmp a c ≠ .gt := by
  rw [bytesCmp_ne_gt_iff] at hab hbc ⊢
  rcases hab with hab | rfl
  · rcases hbc with hbc | rfl
    · exact Or.inl (bytesCmp_lt_trans hab hbc)
    · exact Or.inl hab
  · exact hbc

theorem bytesCmp_lt_of_lt_of_le {a b c : Bytes} (hab : bytesCmp a b = .lt)
    (hbc : bytesCmp b c ≠ .gt) : bytesCmp a c = .lt := by
  rw [bytesCmp_ne_gt_iff] at hbc
  rcases hbc with hbc | rfl
  · exact bytesCmp_lt_trans hab hbc
  · exact hab

theorem bytesCmp_lt_of_le_of_lt {a b c : Bytes} (hab : bytesCmp a b ≠ .gt)
    (hbc : bytesCmp b c = .lt) : bytesCmp a c = .lt := by
  rw [bytesCmp_ne_gt_iff] at hab
  rcases hab with hab | rfl
  · exact bytesCmp_lt_trans hab hbc
  · exact hbc

theorem bytesCmp_lt_ne_gt {a b : Bytes} (h : bytesCmp a b = .lt) :
    bytesCmp a b ≠ .gt := by
  rw [h]; intro hc; cases hc

theorem bytesCmp_lt_irrefl (a : Bytes) : bytesCmp a a ≠ .lt := by
  rw [bytesCmp_self]; intro h; cases h

/-- Comparing two lists that share a common prefix reduces to comparing
the remainders. -/
theorem bytesCmp_append_left (x a b : Bytes) :
    bytesCmp (x ++ a) (x ++ b) = bytesCmp a b := by
  induction x with
  | nil => rfl
  | cons h t ih => simp [bytesCmp, ih]

/-- Three-way comparison of naturals (the order of u64 versions). -/
def natCmp (a b : Nat) : Ordering :=
  if a < b then .lt else if b < a then .gt else .eq

theorem natCmp_self (a : Nat) : natCmp a a = .eq := by simp [natCmp]

theorem natCmp_eq_iff (a b : Nat) : natCmp a b = .eq ↔ a = b := by
  unfold natCmp
  split
  · constructor
    · intro h; cases h
    · omega
  · split
    · constructor
      · intro h; cases h
      · omega
    · constructor
      · intro _; omega
      · intro _; rfl

theorem natCmp_lt_iff (a b : Nat) : natCmp a b = .lt ↔ a < b := by
  unfold natCmp
  split
  · simpa
  · split <;> simp <;> omega

/-- Big-endian byte encoding: beBytes n v is the n-byte big-endian form
of v modulo 256 to the n (u64 values use n = 8, as in to_be_bytes). -/
def beBytes : Nat → Nat → Bytes
  | 0, _ => []
  | n + 1, v => (v / 256 ^ n % 256) :: beBytes n v

/-- The 8-byte big-endian encoding of a u64 (serialize_u64). -/
def be8 (v : Nat) : Bytes := beBytes 8 v

/-- The 8-byte little-endian encoding of a u64 (bincode fixint format). -/
def le8 (v : Nat) : Bytes := (beBytes 8 v).reverse

/-- Big-endian value of a byte string (from_be_bytes). -/
def beVal (bs : Bytes) : Nat := bs.foldl (fun acc b => acc * 256 + b) 0

theorem beBytes_length (n v : Nat) : (beBytes n v).length = n := by
  induction n generalizing v with
  | zero => rfl
  | succ n ih => simp [beBytes, ih]

theorem beBytes_mem_lt (n v : Nat) : ∀ b ∈ beBytes n v, b < 256 := by
  induction n generalizing v with
  | zero => intro b hb; cases hb
  | succ n ih =>
    intro b hb
    simp only [beBytes, List.mem_cons] at hb
    rcases hb with rfl | hb
    · exact Nat.mod_lt _ (by omega)
    · exact ih v b hb

theorem beBytes_mod (n v : Nat) : beBytes n (v % 256 ^ n) = beBytes n v := by
  induction n generalizing v with
  | zero => rfl
  | succ n ih =>
    have hd : v % 256 ^ (n + 1) / 256 ^ n % 256 = v / 256 ^ n % 256 := by
      rw [pow_succ, Nat.mod_mul_right_div_self]
      omega
    have ht : beBytes n (v % 256 ^ (n + 1)) = beBytes n v := by
      have h1 : v % 256 ^ (n + 1) % 256 ^ n = v % 256 ^ n :=
        Nat.mod_mod_of_dvd v (by rw [pow_succ]; exact Dvd.intro 256 rfl)
      rw [← ih (v % 256 ^ (n + 1)), h1, ih]
    simp [beBytes, hd, ht]

theorem beBytes_cmp (n v1 v2 : Nat) (h1 : v1 < 256 ^ n) (h2 : v2 < 256 ^ n) :
    bytesCmp (beBytes n v1) (beBytes n v2) = natCmp v1 v2 := by
  induction n generalizing v1 v2 with
  | zero =>
    have : v1 = 0 := by simpa using h1
    have : v2 = 0 := by simpa using h2
    subst_vars
    rfl
  | succ n ih =>
    have hp : 0 < 256 ^ n := Nat.pos_pow_of_pos n (by omega)
    have hb1 : v1 / 256 ^ n < 256 := by
      rw [Nat.div_lt_iff_lt_mul hp]
      rw [pow_succ] at h1
      omega
    have hb2 : v2 / 256 ^ n < 256 := by
      rw [Nat.div_lt_iff_lt_mul hp]
      rw [pow_succ] at h2
      omega
    have e1 : v1 / 256 ^ n % 256 = v1 / 256 ^ n := Nat.mod_eq_of_lt hb1
    have e2 : v2 / 256 ^ n % 256 = v2 / 256 ^ n := Nat.mod_eq_of_lt hb2
    have hm1 : v1 % 256 ^ n < 256 ^ n := Nat.mod_lt _ hp
    have hm2 : v2 % 256 ^ n < 256 ^ n := Nat.mod_lt _ hp
    have htail : bytesCmp (beBytes n v1) (beBytes n v2) =
        natCmp (v1 % 256 ^ n) (v2 % 256 ^ n) := by
      rw [← beBytes_mod n v1, ← beBytes_mod n v2]
      exact ih _ _ hm1 hm2
    have hv1 : v1 = 256 ^ n * (v1 / 256 ^ n) + v1 % 256 ^ n :=
      (Nat.div_add_mod v1 (256 ^ n)).symm
    have hv2 : v2 = 256 ^ n * (v2 / 256 ^ n) + v2 % 256 ^ n :=
      (Nat.div_add_mod v2 (256 ^ n)).symm
    simp only [beBytes, bytesCmp, e1, e2]
    by_cases hlt : v1 / 256 ^ n < v2 / 256 ^ n
    · have hstep : 256 ^ n * (v1 / 256 ^ n) + 256 ^ n ≤ 256 ^ n * (v2 / 256 ^ n) := by
        calc 256 ^ n * (v1 / 256 ^ n) + 256 ^ n = 256 ^ n * (v1 / 256 ^ n + 1) := by ring
        _ ≤ 256 ^ n * (v2 / 256 ^ n) := Nat.mul_le_mul_left _ hlt
      have hvl : v1 < v2 := by omega
      simp [hlt, natCmp, hvl]
    · by_cases hgt : v2 / 256 ^ n < v1 / 256 ^ n
      · have hstep : 256 ^ n * (v2 / 256 ^ n) + 256 ^ n ≤ 256 ^ n * (v1 / 256 ^ n) := by
          calc 256 ^ n * (v2 / 256 ^ n) + 256 ^ n = 256 ^ n * (v2 / 256 ^ n + 1) := by ring
          _ ≤ 256 ^ n * (v1 / 256 ^ n) := Nat.mul_le_mul_left _ hgt
        have hvg : v2 < v1 := by omega
        have hnl : ¬ v1 < v2 := by omega
        simp [hlt, hgt, natCmp, hvg, hnl]
      · have hde : v1 / 256 ^ n = v2 / 256 ^ n := by omega
        have hE : 256 ^ n * (v1 / 256 ^ n) = 256 ^ n * (v2 / 256 ^ n) := by rw [hde]
        have hiff1 : v1 % 256 ^ n < v2 % 256 ^ n ↔ v1 < v2 := by omega
        have hiff2 : v2 % 256 ^ n < v1 % 256 ^ n ↔ v2 < v1 := by omega
        have hmain : natCmp (v1 % 256 ^ n) (v2 % 256 ^ n) = natCmp v1 v2 := by
          unfold natCmp
          by_cases hc1 : v1 < v2
          · rw [if_pos (hiff1.mpr hc1), if_pos hc1]
          · by_cases hc2 : v2 < v1
            · rw [if_neg (fun hx => hc1 (hiff1.mp hx)), if_pos (hiff2.mpr hc2),
                if_neg hc1, if_pos hc2]
            · rw [if_neg (fun hx => hc1 (hiff1.mp hx)), if_neg (fun hx => hc2 (hiff2.mp hx)),
                if_neg hc1, if_neg hc2]
        simp [hlt, hgt, htail, hmain]

theorem beVal_beBytes (n v : Nat) : beVal (beBytes n v) = v % 256 ^ n := by
  have aux : ∀ n v acc, List.foldl (fun acc b => acc * 256 + b) acc (beBytes n v) =
      acc * 256 ^ n + v % 256 ^ n := by
    intro n
    induction n with
    | zero => intro v acc; simp [beBytes, Nat.mod_one]
    | succ n ih =>
      intro v acc
      simp only [beBytes, List.foldl_cons, ih]
      have hsplit : v % 256 ^ (n + 1) = v % 256 ^ n + 256 ^ n * (v / 256 ^ n % 256) := by
        rw [pow_succ, Nat.mod_mul]
      rw [hsplit]
      ring
  have := aux n v 0
  simpa [beVal] using this

theorem beBytes_inj {n v1 v2 : Nat} (h1 : v1 < 256 ^ n) (h2 : v2 < 256 ^ n)
    (h : beBytes n v1 = beBytes n v2) : v1 = v2 := by
  have hc : bytesCmp (beBytes n v1) (beBytes n v2) = .eq := by
    rw [h, bytesCmp_self]
  rw [beBytes_cmp n v1 v2 h1 h2, natCmp_eq_iff] at hc
  exact hc

/-- The 0x00-escaping of serialize_bytes: each 0 byte of the payload
becomes the pair 0 255, other bytes are copied. -/
def escapeBytes : Bytes → Bytes
  | [] => []
  | b :: rest => (if b = 0 then [0, 255] else [b]) ++ escapeBytes rest

/-- serialize_bytes: the escaped payload followed by the 0 0 terminator. -/
def serBytes (k : Bytes) : Bytes := escapeBytes k ++ [0, 0]

/-- The escape-terminate scheme is a prefix-free code that preserves the
lexicographic order: two encoded byte strings followed by arbitrary
suffixes compare first by the payloads and, when those are equal, by the
suffixes. -/
theorem serBytes_cmp (k1 : Bytes) : ∀ (k2 s1 s2 : Bytes),
    bytesCmp (serBytes k1 ++ s1) (serBytes k2 ++ s2) =
      if k1 = k2 then bytesCmp s1 s2 else bytesCmp k1 k2 := by
  induction k1 with
  | nil =>
    intro k2 s1 s2
    cases k2 with
    | nil =>
      simp only [serBytes, escapeBytes, List.nil_append, List.cons_append, if_pos rfl]
      simp [bytesCmp]
    | cons y r2 =>
      have hne : ([] : Bytes) ≠ y :: r2 := by simp
      rw [if_neg hne]
      by_cases hy : y = 0
      · subst hy
        simp only [serBytes, escapeBytes, List.nil_append, List.cons_append, if_pos rfl]
        simp [bytesCmp]
      · simp only [serBytes, escapeBytes, List.nil_append, List.cons_append, if_neg hy]
        have h0 : 0 < y := Nat.pos_of_ne_zero hy
        simp [bytesCmp, h0]
  | cons x r1 ih =>
    intro k2 s1 s2
    cases k2 with
    | nil =>
      have hne : x :: r1 ≠ ([] : Bytes) := by simp
      rw [if_neg hne]
      by_cases hx : x = 0
      · subst hx
        simp only [serBytes, escapeBytes, List.nil_append, List.cons_append, if_pos rfl]
        simp [bytesCmp]
      · simp only [serBytes, escapeBytes, List.nil_append, List.cons_append, if_neg hx]
        have h0 : 0 < x := Nat.pos_of_ne_zero hx
        simp [bytesCmp, h0, Nat.not_lt_of_lt h0]
    | cons y r2 =>
      by_cases hx : x = 0
      · by_cases hy : y = 0
        · subst hx; subst hy
          have e1 : serBytes (0 :: r1) ++ s1 = 0 :: 255 :: (serBytes r1 ++ s1) := by
            simp [serBytes, escapeBytes]
          have e2 : serBytes (0 :: r2) ++ s2 = 0 :: 255 :: (serBytes r2 ++ s2) := by
            simp [serBytes, escapeBytes]
          rw [e1, e2]
          have estrip : bytesCmp (0 :: 255 :: (serBytes r1 ++ s1))
              (0 :: 255 :: (serBytes r2 ++ s2)) =
              bytesCmp (serBytes r1 ++ s1) (serBytes r2 ++ s2) := by
            simp [bytesCmp]
          rw [estrip, ih r2 s1 s2]
          by_cases hr : r1 = r2
          · subst hr; simp
          · rw [if_neg hr, if_neg (by simp [hr])]
            simp [bytesCmp]
        · subst hx
          have hne : (0 : Nat) :: r1 ≠ y :: r2 := by
            intro h; cases h; exact hy rfl
          rw [if_neg hne]
          simp only [serBytes, escapeBytes, if_pos rfl, if_neg hy, List.cons_append,
            List.append_assoc, List.nil_append]
          have h0 : 0 < y := Nat.pos_of_ne_zero hy
          simp [bytesCmp, h0]
      · by_cases hy : y = 0
        · subst hy
          have hne : x :: r1 ≠ (0 : Nat) :: r2 := by
            intro h; cases h; exact hx rfl
          rw [if_neg hne]
          simp only [serBytes, escapeBytes, if_pos rfl, if_neg hx, List.cons_append,
            List.append_assoc, List.nil_append]
          have h0 : 0 < x := Nat.pos_of_ne_zero hx
          simp [bytesCmp, h0, Nat.not_lt_of_lt h0]
        · simp only [serBytes, escapeBytes, if_neg hx, if_neg hy, List.cons_append,
            List.append_assoc, List.nil_append]
          by_cases hlt : x < y
          · have hne : x :: r1 ≠ y :: r2 := by
              intro h; cases h; omega
            rw [if_neg hne]
            simp [bytesCmp, hlt]
          · by_cases hgt : y < x
            · have hne : x :: r1 ≠ y :: r2 := by
                intro h; cases h; omega
              rw [if_neg hne]
              simp [bytesCmp, hlt, hgt]
            · have hxy : x = y := by omega
              subst hxy
              have hmain := ih r2 s1 s2
              simp only [serBytes, List.append_assoc, List.cons_append,
                List.nil_append] at hmain
              have estrip : bytesCmp (x :: (escapeBytes r1 ++ 0 :: 0 :: s1))
                  (x :: (escapeBytes r2 ++ 0 :: 0 :: s2)) =
                  bytesCmp (escapeBytes r1 ++ 0 :: 0 :: s1)
                    (escapeBytes r2 ++ 0 :: 0 :: s2) := by
                simp [bytesCmp]
              rw [estrip, hmain]
              by_cases hr : r1 = r2
              · subst hr; simp
              · rw [if_neg hr, if_neg (by simp [hr])]
                simp [bytesCmp, hlt, hgt]

/-- Order preservation of the escape scheme on its own (no suffixes). -/
theorem serBytes_cmp_plain (k1 k2 : Bytes) :
    bytesCmp (serBytes k1) (serBytes k2) = bytesCmp k1 k2 := by
  have h := serBytes_cmp k1 k2 [] []
  simp only [List.append_nil] at h
  rw [h]
  by_cases hr : k1 = k2
  · subst hr; simp [bytesCmp, bytesCmp_self]
  · rw [if_neg hr]

/-- A byte string compares strictly below any proper extension of itself. -/
theorem bytesCmp_self_append (k e : Bytes) (he : e ≠ []) :
    bytesCmp k (k ++ e) = .lt := by
  have h := bytesCmp_append_left k [] e
  rw [List.append_nil] at h
  rw [h]
  cases e with
  | nil => exact absurd rfl he
  | cons c cs => rfl

/-- The MVCC key space (enum MvccKey in src/storage/mvcc.rs). -/
inductive MvccKey where
  | nextVersion : MvccKey
  | activeTransactions (v : Nat) : MvccKey
  | write (v : Nat) (key : Bytes) : MvccKey
  | version (key : Bytes) (v : Nat) : MvccKey
deriving DecidableEq, Repr

/-- Key-codec serialization of an MvccKey (serialize_key through the
custom Serializer): a one-byte variant tag followed by the components,
u64 fields big-endian, byte strings escape-terminated. -/
def MvccKey.encode : MvccKey → Bytes
  | .nextVersion => [0]
  | .activeTransactions v => 1 :: be8 v
  | .write v k => 2 :: (be8 v ++ serBytes k)
  | .version k v => 3 :: (serBytes k ++ be8 v)

/-- Version components fit in a u64 and raw user keys are byte strings
(they are u64 and Vec of u8 in the source). -/
def MvccKey.Bounded : MvccKey → Prop
  | .nextVersion => True
  | .activeTransactions v => v < 2 ^ 64
  | .write v k => v < 2 ^ 64 ∧ ∀ b ∈ k, b < 256
  | .version k v => v < 2 ^ 64 ∧ ∀ b ∈ k, b < 256

def MvccKey.tag : MvccKey → Nat
  | .nextVersion => 0
  | .activeTransactions _ => 1
  | .write _ _ => 2
  | .version _ _ => 3

/-- Lexicographic composition of comparisons. -/
def ordThen : Ordering → Ordering → Ordering
  | .eq, o => o
  | o, _ => o

theorem ordThen_eq_iff (a b : Ordering) :
    ordThen a b = .eq ↔ (a = .eq ∧ b = .eq) := by
  cases a <;> simp [ordThen]

theorem ordThen_of_ne_eq {a : Ordering} (h : a ≠ .eq) (b : Ordering) :
    ordThen a b = a := by
  cases a
  · rfl
  · exact absurd rfl h
  · rfl

/-- Specification-side natural order on MVCC keys: variant tag first,
then the components left to right (byte strings lexicographically,
versions numerically). -/
def mvccCmp : MvccKey → MvccKey → Ordering
  | .nextVersion, .nextVersion => .eq
  | .activeTransactions v1, .activeTransactions v2 => natCmp v1 v2
  | .write v1 k1, .write v2 k2 => ordThen (natCmp v1 v2) (bytesCmp k1 k2)
  | .version k1 v1, .version k2 v2 => ordThen (bytesCmp k1 k2) (natCmp v1 v2)
  | a, b => natCmp a.tag b.tag

/-- Comparison of concatenations of equal-length blocks is the
lexicographic composition of the blockwise comparisons. -/
theorem bytesCmp_append_congr (a : Bytes) : ∀ (b s1 s2 : Bytes), a.length = b.length →
    bytesCmp (a ++ s1) (b ++ s2) = ordThen (bytesCmp a b) (bytesCmp s1 s2) := by
  induction a with
  | nil =>
    intro b s1 s2 hl
    cases b with
    | nil => simp [bytesCmp, ordThen]
    | cons y ys => simp at hl
  | cons x xs ih =>
    intro b s1 s2 hl
    cases b with
    | nil => simp at hl
    | cons y ys =>
      simp only [List.length_cons, Nat.succ_inj] at hl
      by_cases h1 : x < y
      · simp [bytesCmp, h1, ordThen]
      · by_cases h2 : y < x
        · simp [bytesCmp, h1, h2, ordThen]
        · simp only [List.cons_append, bytesCmp, if_neg h1, if_neg h2]
          exact ih ys s1 s2 hl

theorem h256pow : (256 : Nat) ^ 8 = 2 ^ 64 := by norm_num

/-- Key codec order isomorphism: on u64-bounded keys, byte-wise
lexicographic order of the encodings is exactly the natural
component-wise key order. -/
theorem encode_cmp (a b : MvccKey) (ha : a.Bounded) (hb : b.Bounded) :
    bytesCmp a.encode b.encode = mvccCmp a b := by
  cases a with
  | nextVersion =>
    cases b with
    | nextVersion => decide
    | activeTransactions v => simp [MvccKey.encode, bytesCmp, mvccCmp, MvccKey.tag, natCmp]
    | write v k => simp [MvccKey.encode, bytesCmp, mvccCmp, MvccKey.tag, natCmp]
    | version k v => simp [MvccKey.encode, bytesCmp, mvccCmp, MvccKey.tag, natCmp]
  | activeTransactions v1 =>
    cases b with
    | nextVersion => simp [MvccKey.encode, bytesCmp, mvccCmp, MvccKey.tag, natCmp]
    | activeTransactions v2 =>
      have ha2 : v1 < 256 ^ 8 := by rw [h256pow]; exact ha
      have hb2 : v2 < 256 ^ 8 := by rw [h256pow]; exact hb
      simp only [MvccKey.encode, mvccCmp, be8]
      have hstrip : bytesCmp (1 :: beBytes 8 v1) (1 :: beBytes 8 v2) =
          bytesCmp (beBytes 8 v1) (beBytes 8 v2) := by
        simp [bytesCmp]
      rw [hstrip, beBytes_cmp 8 v1 v2 ha2 hb2]
    | write v k => simp [MvccKey.encode, bytesCmp, mvccCmp, MvccKey.tag, natCmp]
    | version k v => simp [MvccKey.encode, bytesCmp, mvccCmp, MvccKey.tag, natCmp]
  | write v1 k1 =>
    cases b with
    | nextVersion => simp [MvccKey.encode, bytesCmp, mvccCmp, MvccKey.tag, natCmp]
    | activeTransactions v => simp [MvccKey.encode, bytesCmp, mvccCmp, MvccKey.tag, natCmp]
    | write v2 k2 =>
      have ha2 : v1 < 256 ^ 8 := by rw [h256pow]; exact ha.1
      have hb2 : v2 < 256 ^ 8 := by rw [h256pow]; exact hb.1
      simp only [MvccKey.encode, mvccCmp, be8]
      have hstrip : bytesCmp (2 :: (beBytes 8 v1 ++ serBytes k1))
          (2 :: (beBytes 8 v2 ++ serBytes k2)) =
          bytesCmp (beBytes 8 v1 ++ serBytes k1) (beBytes 8 v2 ++ serBytes k2) := by
        simp [bytesCmp]
      have hlen : (beBytes 8 v1).length = (beBytes 8 v2).length := by
        simp [beBytes_length]
      rw [hstrip,
        bytesCmp_append_congr (beBytes 8 v1) (beBytes 8 v2) (serBytes k1) (serBytes k2) hlen,
        serBytes_cmp_plain, beBytes_cmp 8 v1 v2 ha2 hb2]
    | version k v => simp [MvccKey.encode, bytesCmp, mvccCmp, MvccKey.tag, natCmp]
  | version k1 v1 =>
    cases b with
    | nextVersion => simp [MvccKey.encode, bytesCmp, mvccCmp, MvccKey.tag, natCmp]
    | activeTransactions v => simp [MvccKey.encode, bytesCmp, mvccCmp, MvccKey.tag, natCmp]
    | write v k => simp [MvccKey.encode, bytesCmp, mvccCmp, MvccKey.tag, natCmp]
    | version k2 v2 =>
      have ha2 : v1 < 256 ^ 8 := by rw [h256pow]; exact ha.1
      have hb2 : v2 < 256 ^ 8 := by rw [h256pow]; exact hb.1
      have hstrip : bytesCmp (3 :: (serBytes k1 ++ be8 v1)) (3 :: (serBytes k2 ++ be8 v2)) =
          bytesCmp (serBytes k1 ++ be8 v1) (serBytes k2 ++ be8 v2) := by
        simp [bytesCmp]
      simp only [MvccKey.encode, hstrip, serBytes_cmp, mvccCmp]
      by_cases hk : k1 = k2
      · subst hk
        simp only [if_pos rfl, bytesCmp_self, be8, beBytes_cmp 8 v1 v2 ha2 hb2]
        rfl
      · rw [if_neg hk, ordThen_of_ne_eq]
        intro hc
        exact hk ((bytesCmp_eq_iff k1 k2).mp hc)

theorem mvccCmp_eq_iff (a b : MvccKey) : mvccCmp a b = .eq ↔ a = b := by
  cases a <;> cases b <;>
    simp [mvccCmp, MvccKey.tag, natCmp_eq_iff, bytesCmp_eq_iff, ordThen_eq_iff]

/-- The key codec is injective on u64-bounded keys. -/
theorem encode_inj {a b : MvccKey} (ha : a.Bounded) (hb : b.Bounded)
    (h : a.encode = b.encode) : a = b := by
  have hc : bytesCmp a.encode b.encode = .eq := by rw [h, bytesCmp_self]
  rw [encode_cmp a b ha hb, mvccCmp_eq_iff] at hc
  exact hc

/-- Key prefixes used for prefix scans (enum MvccKeyPrefix): the same
serialization but without the components that are left open. -/
inductive MvccKeyPrefix where
  | nextVersion : MvccKeyPrefix
  | activeTransactions : MvccKeyPrefix
  | write (v : Nat) : MvccKeyPrefix
  | version (key : Bytes) : MvccKeyPrefix

def MvccKeyPrefix.encode : MvccKeyPrefix → Bytes
  | .nextVersion => [0]
  | .activeTransactions => [1]
  | .write v => 2 :: be8 v
  | .version k => 3 :: serBytes k

/-- Deserializer helper take_bytes specialised to u64 fields: consume 8
big-endian bytes (deserialize_u64); fails when the input is shorter. -/
def takeU64 (input : Bytes) : Option (Nat × Bytes) :=
  if 8 ≤ input.length then some (beVal (input.take 8), input.drop 8) else none

/-- Deserializer helper next_bytes: read an escape-terminated byte
string (0 0 terminates, 0 255 decodes to a literal 0 byte, a 0 followed
by anything else — or a truncated input — is an error). -/
def nextBytes : Bytes → Option (Bytes × Bytes)
  | [] => none
  | b :: rest =>
    if b = 0 then
      match rest with
      | [] => none
      | c :: rest2 =>
        if c = 0 then some ([], rest2)
        else if c = 255 then (nextBytes rest2).map (fun p => (0 :: p.1, p.2))
        else none
    else (nextBytes rest).map (fun p => (b :: p.1, p.2))

/-- deserialize_key for the MvccKey shape: a variant tag byte followed
by the variant components (none for NextVersion, a u64 for
ActiveTransactions, u64 then bytes for Write, bytes then u64 for
Version); an unknown tag fails. -/
def deserializeMvccKey (input : Bytes) : Option MvccKey :=
  match input with
  | [] => none
  | t :: rest =>
    if t = 0 then some .nextVersion
    else if t = 1 then (takeU64 rest).map (fun p => .activeTransactions p.1)
    else if t = 2 then
      match takeU64 rest with
      | none => none
      | some (v, r) =>
        match nextBytes r with
        | none => none
        | some (k, _) => some (.write v k)
    else if t = 3 then
      match nextBytes rest with
      | none => none
      | some (k, r) =>
        match takeU64 r with
        | none => none
        | some (v, _) => some (.version k v)
    else none

theorem nextBytes_escape (k : Bytes) : ∀ s : Bytes,
    nextBytes (escapeBytes k ++ 0 :: 0 :: s) = some (k, s) := by
  induction k with
  | nil => intro s; simp [escapeBytes, nextBytes]
  | cons b bs ih =>
    intro s
    by_cases hb : b = 0
    · subst hb
      simp [escapeBytes, nextBytes, ih s]
    · simp only [escapeBytes, if_neg hb, List.cons_append, List.nil_append]
      rw [nextBytes.eq_def]
      simp [hb, ih s]

theorem takeU64_be8 (v : Nat) (hv : v < 2 ^ 64) (s : Bytes) :
    takeU64 (be8 v ++ s) = some (v, s) := by
  have hlen : (be8 v).length = 8 := beBytes_length 8 v
  have ht : (be8 v ++ s).take 8 = be8 v := by
    rw [← hlen]; exact List.take_left _ _
  have hd : (be8 v ++ s).drop 8 = s := by
    rw [← hlen]; exact List.drop_left _ _
  have hval : beVal (be8 v) = v := by
    rw [be8, beVal_beBytes, Nat.mod_eq_of_lt]
    rw [h256pow]
    exact hv
  have hcond : 8 ≤ (be8 v ++ s).length := by
    rw [List.length_append, hlen]; omega
  simp [takeU64, hcond, ht, hd, hval, hlen]

/-- Decoding inverts encoding (shared helper). -/
theorem deserialize_encode_eq (k : MvccKey) (h : k.Bounded) :
    deserializeMvccKey k.encode = some k := by
  cases k with
  | nextVersion => rfl
  | activeTransactions v =>
    have hv : v < 2 ^ 64 := h
    have h1 := takeU64_be8 v hv []
    rw [List.append_nil] at h1
    simp [MvccKey.encode, deserializeMvccKey, h1]
  | write v k =>
    have hv : v < 2 ^ 64 := h.1
    have h1 := takeU64_be8 v hv (serBytes k)
    have h2 := nextBytes_escape k []
    simp only [serBytes, List.append_assoc] at h1 h2 ⊢
    simp [MvccKey.encode, deserializeMvccKey, h1, h2, serBytes]
  | version k v =>
    have hv : v < 2 ^ 64 := h.1
    have h2 := nextBytes_escape k (be8 v)
    have h1 := takeU64_be8 v hv []
    rw [List.append_nil] at h1
    simp only [serBytes, List.append_assoc] at h2 ⊢
    simp [MvccKey.encode, deserializeMvccKey, h1, h2, serBytes]

/-- C5: the key codec round-trips — deserializing the serialization of
any MvccKey (NextVersion, ActiveTransactions(v), Write(v, bytes),
Version(bytes, v), with arbitrary byte strings and u64 versions) gives
back the original key. -/
theorem claimC5_key_codec_roundtrip (k : MvccKey) (h : k.Bounded) :
    deserializeMvccKey k.encode = some k :=
  deserialize_encode_eq k h

/-- Witness for C5 at a concrete key. -/
theorem claimC5_key_codec_roundtrip_witness :
    (MvccKey.version [97, 0, 99] 11).Bounded ∧
      deserializeMvccKey (MvccKey.version [97, 0, 99] 11).encode =
        some (MvccKey.version [97, 0, 99] 11) := by
  have hb : (MvccKey.version [97, 0, 99] 11).Bounded :=
    ⟨by norm_num, by decide⟩
  exact ⟨hb, claimC5_key_codec_roundtrip (MvccKey.version [97, 0, 99] 11) hb⟩

/-- C4: for u64-bounded MVCC keys, the natural component-wise key order
(variant tag first, then components) coincides with lexicographic byte
order of the encodings; moreover the escape-terminate byte-string
encoding preserves byte order and sorts any byte string strictly before
each of its proper extensions. -/
theorem claimC4_key_encode_order (k1 k2 : MvccKey) (h1 : k1.Bounded) (h2 : k2.Bounded) :
    (mvccCmp k1 k2 = .lt ↔ bytesCmp k1.encode k2.encode = .lt)
    ∧ (∀ a b : Bytes, bytesCmp (serBytes a) (serBytes b) = bytesCmp a b)
    ∧ (∀ a e : Bytes, e ≠ [] → bytesCmp (serBytes a) (serBytes (a ++ e)) = .lt) := by
  refine ⟨?_, serBytes_cmp_plain, ?_⟩
  · rw [encode_cmp k1 k2 h1 h2]
  · intro a e he
    rw [serBytes_cmp_plain]
    exact bytesCmp_self_append a e he

/-- Witness for C4 at concrete keys. -/
theorem claimC4_key_encode_order_witness :
    (MvccKey.version [1] 3).Bounded ∧ (MvccKey.write 3 [1]).Bounded ∧
      ((mvccCmp (MvccKey.write 3 [1]) (MvccKey.version [1] 3) = .lt ↔
          bytesCmp (MvccKey.write 3 [1]).encode (MvccKey.version [1] 3).encode = .lt)
        ∧ (∀ a b : Bytes, bytesCmp (serBytes a) (serBytes b) = bytesCmp a b)
        ∧ (∀ a e : Bytes, e ≠ [] → bytesCmp (serBytes a) (serBytes (a ++ e)) = .lt)) := by
  have hb1 : (MvccKey.version [1] 3).Bounded :=
    ⟨by norm_num, by decide⟩
  have hb2 : (MvccKey.write 3 [1]).Bounded :=
    ⟨by norm_num, by decide⟩
  exact ⟨hb1, hb2, claimC4_key_encode_order (MvccKey.write 3 [1]) (MvccKey.version [1] 3) hb2 hb1⟩

/-!
The ordered KV engine.  Both backends (the BTreeMap of the memory
engine and the BTreeMap key directory of the disk engine) are ordered
maps from byte strings; they are modelled as association lists strictly
sorted by key.  set / get / delete are the map operations, scan over a
range is the in-order filter of the entries in the range.
-/

/-- Insert or replace a key in a sorted association list (BTreeMap
insert). -/
def storeSet {α : Type} : List (Bytes × α) → Bytes → α → List (Bytes × α)
  | [], k, v => [(k, v)]
  | (k2, v2) :: rest, k, v =>
    match bytesCmp k k2 with
    | .lt => (k, v) :: (k2, v2) :: rest
    | .eq => (k, v) :: rest
    | .gt => (k2, v2) :: storeSet rest k v

/-- Remove a key (BTreeMap remove). -/
def storeDelete {α : Type} (s : List (Bytes × α)) (k : Bytes) : List (Bytes × α) :=
  s.filter (fun e => decide (e.1 ≠ k))

/-- Point lookup (BTreeMap get). -/
def storeLookup {α : Type} : List (Bytes × α) → Bytes → Option α
  | [], _ => none
  | (k2, v) :: rest, k => if k = k2 then some v else storeLookup rest k

/-- Keys strictly ascending: the representation invariant of the
ordered map. -/
def StoreSorted {α : Type} (s : List (Bytes × α)) : Prop :=
  s.Pairwise (fun a b => bytesCmp a.1 b.1 = .lt)

theorem mem_storeSet {α : Type} (s : List (Bytes × α)) (k : Bytes) (v : α) :
    ∀ e ∈ storeSet s k v, e ∈ s ∨ e = (k, v) := by
  induction s with
  | nil =>
    intro e he
    simp only [storeSet] at he
    rcases List.mem_cons.mp he with rfl | he
    · right; rfl
    · cases he
  | cons e2 rest ih =>
    obtain ⟨k2, v2⟩ := e2
    intro e he
    rcases hc : bytesCmp k k2 with _ | _ | _ <;> simp only [storeSet, hc] at he
    · rcases List.mem_cons.mp he with rfl | he
      · right; rfl
      · left; exact he
    · rcases List.mem_cons.mp he with rfl | he
      · right; rfl
      · left; exact List.mem_cons_of_mem _ he
    · rcases List.mem_cons.mp he with rfl | he
      · left; exact List.mem_cons_self _ _
      · rcases ih e he with h | h
        · left; exact List.mem_cons_of_mem _ h
        · right; exact h

theorem storeSet_sorted {α : Type} {s : List (Bytes × α)} (hs : StoreSorted s)
    (k : Bytes) (v : α) : StoreSorted (storeSet s k v) := by
  induction s with
  | nil => simp [storeSet, StoreSorted]
  | cons e rest ih =>
    obtain ⟨k2, v2⟩ := e
    have hrest : StoreSorted rest := (List.pairwise_cons.mp hs).2
    have hhead : ∀ e2 ∈ rest, bytesCmp k2 e2.1 = .lt := (List.pairwise_cons.mp hs).1
    rcases hc : bytesCmp k k2 with _ | _ | _ <;> simp only [storeSet, hc]
    · refine List.pairwise_cons.mpr ⟨?_, hs⟩
      intro e2 he2
      rcases List.mem_cons.mp he2 with rfl | he2
      · exact hc
      · exact bytesCmp_lt_trans hc (hhead e2 he2)
    · have hk : k = k2 := (bytesCmp_eq_iff k k2).mp hc
      refine List.pairwise_cons.mpr ⟨?_, hrest⟩
      intro e2 he2
      rw [hk]
      exact hhead e2 he2
    · refine List.pairwise_cons.mpr ⟨?_, ih hrest⟩
      intro e2 he2
      rcases mem_storeSet rest k v e2 he2 with hmem | hmem
      · exact hhead e2 hmem
      · rw [hmem]
        have h := bytesCmp_swap k2 k
        rw [hc] at h
        cases hx : bytesCmp k2 k
        · rfl
        · rw [hx] at h; simp [Ordering.swap] at h
        · rw [hx] at h; simp [Ordering.swap] at h

theorem storeLookup_eq_some_of_mem {α : Type} {s : List (Bytes × α)}
    (hs : StoreSorted s) {k : Bytes} {v : α} (h : (k, v) ∈ s) :
    storeLookup s k = some v := by
  induction s with
  | nil => cases h
  | cons e rest ih =>
    obtain ⟨k2, v2⟩ := e
    rcases List.mem_cons.mp h with he | he
    · have h1 : k = k2 := congrArg Prod.fst he
      have h2 : v = v2 := congrArg Prod.snd he
      subst h1
      subst h2
      simp [storeLookup]
    · have hhead : ∀ e2 ∈ rest, bytesCmp k2 e2.1 = .lt := (List.pairwise_cons.mp hs).1
      have hne : k ≠ k2 := by
        intro hk
        subst hk
        exact absurd (hhead (k, v) he) (bytesCmp_lt_irrefl k)
      simp only [storeLookup, if_neg hne]
      exact ih (List.Pairwise.of_cons hs) he

theorem mem_of_storeLookup_eq_some {α : Type} {s : List (Bytes × α)}
    {k : Bytes} {v : α} (h : storeLookup s k = some v) : (k, v) ∈ s := by
  induction s with
  | nil => cases h
  | cons e rest ih =>
    obtain ⟨k2, v2⟩ := e
    by_cases hk : k = k2
    · subst hk
      simp only [storeLookup, if_pos rfl] at h
      cases h
      exact List.mem_cons_self _ _
    · simp only [storeLookup, if_neg hk] at h
      exact List.mem_cons_of_mem _ (ih h)

theorem storeLookup_storeSet {α : Type} {s : List (Bytes × α)} (hs : StoreSorted s)
    (k : Bytes) (v : α) (k2 : Bytes) :
    storeLookup (storeSet s k v) k2 = if k2 = k then some v else storeLookup s k2 := by
  induction s with
  | nil => simp [storeSet, storeLookup]
  | cons e rest ih =>
    obtain ⟨k3, v3⟩ := e
    have hrest : StoreSorted rest := List.Pairwise.of_cons hs
    rcases hc : bytesCmp k k3 with _ | _ | _ <;> simp only [storeSet, hc]
    · by_cases h2 : k2 = k
      · simp [storeLookup, h2]
      · simp [storeLookup, h2]
    · have hk : k = k3 := (bytesCmp_eq_iff k k3).mp hc
      subst hk
      by_cases h2 : k2 = k
      · simp [storeLookup, h2]
      · simp [storeLookup, h2]
    · have hne : k ≠ k3 := by
        intro hk
        subst hk
        rw [bytesCmp_self] at hc
        cases hc
      by_cases h2 : k2 = k3
      · subst h2
        rw [if_neg (fun hx => hne hx.symm)]
        simp [storeLookup]
      · simp only [storeLookup, if_neg h2]
        exact ih hrest

theorem storeLookup_storeDelete {α : Type} (s : List (Bytes × α)) (k k2 : Bytes) :
    storeLookup (storeDelete s k) k2 = if k2 = k then none else storeLookup s k2 := by
  induction s with
  | nil => by_cases h2 : k2 = k <;> simp [storeDelete, storeLookup, h2]
  | cons e rest ih =>
    obtain ⟨k3, v3⟩ := e
    by_cases h3 : k3 = k
    · subst h3
      have hstep : storeDelete ((k3, v3) :: rest) k3 = storeDelete rest k3 := by
        simp [storeDelete]
      rw [hstep, ih]
      by_cases h2 : k2 = k3
      · simp [h2]
      · simp [h2, storeLookup]
    · have hstep : storeDelete ((k3, v3) :: rest) k = (k3, v3) :: storeDelete rest k := by
        simp [storeDelete, h3]
      rw [hstep]
      by_cases h2 : k2 = k3
      · have hk2 : k2 ≠ k := by
          intro hx
          apply h3
          rw [← h2]
          exact hx
        rw [if_neg hk2]
        simp [storeLookup, h2]
      · simp only [storeLookup, if_neg h2]
        exact ih

theorem storeDelete_sorted {α : Type} {s : List (Bytes × α)} (hs : StoreSorted s)
    (k : Bytes) : StoreSorted (storeDelete s k) :=
  List.Pairwise.sublist (List.filter_sublist s) hs

/-- Two sorted stores with the same lookup function are equal. -/
theorem store_ext {α : Type} : ∀ {s t : List (Bytes × α)}, StoreSorted s → StoreSorted t →
    (∀ k, storeLookup s k = storeLookup t k) → s = t := by
  intro s
  induction s with
  | nil =>
    intro t _ ht hl
    cases t with
    | nil => rfl
    | cons e rest =>
      obtain ⟨k2, v2⟩ := e
      have := hl k2
      simp [storeLookup] at this
  | cons e rest ih =>
    intro t hs ht hl
    obtain ⟨k1, v1⟩ := e
    cases t with
    | nil =>
      have := hl k1
      simp [storeLookup] at this
    | cons e2 rest2 =>
      obtain ⟨k2, v2⟩ := e2
      have h1 : storeLookup ((k1, v1) :: rest) k1 = some v1 := by simp [storeLookup]
      have h2 : storeLookup ((k2, v2) :: rest2) k2 = some v2 := by simp [storeLookup]
      have hm1 : (k1, v1) ∈ (k2, v2) :: rest2 := mem_of_storeLookup_eq_some ((hl k1).symm ▸ h1)
      have hm2 : (k2, v2) ∈ (k1, v1) :: rest := mem_of_storeLookup_eq_some ((hl k2) ▸ h2)
      have hk : k1 = k2 := by
        by_contra hne
        have hin1 : (k1, v1) ∈ rest2 := by
          rcases List.mem_cons.mp hm1 with he | he
          · exact absurd (congrArg Prod.fst he) hne
          · exact he
        have hin2 : (k2, v2) ∈ rest := by
          rcases List.mem_cons.mp hm2 with he | he
          · exact absurd (congrArg Prod.fst he).symm hne
          · exact he
        have hlt1 : bytesCmp k2 k1 = .lt := (List.pairwise_cons.mp ht).1 _ hin1
        have hlt2 : bytesCmp k1 k2 = .lt := (List.pairwise_cons.mp hs).1 _ hin2
        exact absurd (bytesCmp_lt_trans hlt1 hlt2) (bytesCmp_lt_irrefl k2)
      subst hk
      have hv : v1 = v2 := by
        have := hl k1
        rw [h1] at this
        simp only [storeLookup, if_pos rfl] at this
        exact Option.some.inj this
      subst hv
      have htail : rest = rest2 := by
        refine ih (List.Pairwise.of_cons hs) (List.Pairwise.of_cons ht) ?_
        intro k
        by_cases hkk : k = k1
        · subst hkk
          have habs1 : storeLookup rest k = none := by
            cases hr : storeLookup rest k with
            | none => rfl
            | some v =>
              have hmem := mem_of_storeLookup_eq_some hr
              have := (List.pairwise_cons.mp hs).1 _ hmem
              exact absurd this (bytesCmp_lt_irrefl k)
          have habs2 : storeLookup rest2 k = none := by
            cases hr : storeLookup rest2 k with
            | none => rfl
            | some v =>
              have hmem := mem_of_storeLookup_eq_some hr
              have := (List.pairwise_cons.mp ht).1 _ hmem
              exact absurd this (bytesCmp_lt_irrefl k)
          rw [habs1, habs2]
        · have := hl k
          simp only [storeLookup, if_neg hkk] at this
          exact this
      rw [htail]

/-- A scan bound (std::ops::Bound on byte-string keys). -/
inductive ScanBound where
  | incl (b : Bytes) : ScanBound
  | excl (b : Bytes) : ScanBound
  | unb : ScanBound

/-- Does a key satisfy the lower bound of a range. -/
def lowOk : ScanBound → Bytes → Bool
  | .incl b, k => match bytesCmp b k with | .gt => false | _ => true
  | .excl b, k => match bytesCmp b k with | .lt => true | _ => false
  | .unb, _ => true

/-- Does a key satisfy the upper bound of a range. -/
def highOk : ScanBound → Bytes → Bool
  | .incl b, k => match bytesCmp k b with | .gt => false | _ => true
  | .excl b, k => match bytesCmp k b with | .lt => true | _ => false
  | .unb, _ => true

/-- Range scan over the ordered store: the in-order entries whose keys
lie inside the bounds (BTreeMap range). -/
def storeScan {α : Type} (s : List (Bytes × α)) (lo hi : ScanBound) : List (Bytes × α) :=
  s.filter (fun e => lowOk lo e.1 && highOk hi e.1)

theorem mem_storeScan {α : Type} (s : List (Bytes × α)) (lo hi : ScanBound) (e : Bytes × α) :
    e ∈ storeScan s lo hi ↔ e ∈ s ∧ lowOk lo e.1 = true ∧ highOk hi e.1 = true := by
  simp [storeScan, List.mem_filter]

theorem storeScan_sorted {α : Type} {s : List (Bytes × α)} (hs : StoreSorted s)
    (lo hi : ScanBound) : StoreSorted (storeScan s lo hi) :=
  List.Pairwise.sublist (List.filter_sublist s) hs

theorem lowOk_incl_iff (b k : Bytes) : lowOk (.incl b) k = true ↔ bytesCmp b k ≠ .gt := by
  cases h : bytesCmp b k <;> simp [lowOk, h]

theorem highOk_incl_iff (b k : Bytes) : highOk (.incl b) k = true ↔ bytesCmp k b ≠ .gt := by
  cases h : bytesCmp k b <;> simp [highOk, h]

theorem highOk_excl_iff (b k : Bytes) : highOk (.excl b) k = true ↔ bytesCmp k b = .lt := by
  cases h : bytesCmp k b <;> simp [highOk, h]

/-- prefix_scan end bound of the default Engine implementation: walking
from the back, drop the trailing 255 bytes and increment the last
remaining byte; none when every byte is 255 (unbounded scan). -/
def prefixScanEnd : Bytes → Option Bytes
  | [] => none
  | b :: rest =>
    match prefixScanEnd rest with
    | some r => some (b :: r)
    | none => if b = 255 then none else some [b + 1]

/-- prefix_scan of the Engine trait: scan from the prefix (inclusive)
up to the computed end bound (exclusive), or right-unbounded when every
prefix byte is 255. -/
def prefixScan {α : Type} (s : List (Bytes × α)) (p : Bytes) : List (Bytes × α) :=
  storeScan s (ScanBound.incl p)
    (match prefixScanEnd p with
     | some np => ScanBound.excl np
     | none => ScanBound.unb)

theorem prefixScanEnd_none_all255 : ∀ p : Bytes, prefixScanEnd p = none → ∀ b ∈ p, b = 255 := by
  intro p
  induction p with
  | nil => intro _ b hb; cases hb
  | cons x rest ih =>
    intro h b hb
    simp only [prefixScanEnd] at h
    rcases hr : prefixScanEnd rest with _ | r
    · rw [hr] at h
      by_cases hx : x = 255
      · rcases List.mem_cons.mp hb with rfl | hb
        · exact hx
        · exact ih hr b hb
      · rw [if_neg hx] at h
        cases h
    · rw [hr] at h
      cases h

/-- For an all-255 prefix, being lexicographically at least the prefix
is the same as extending it (bytes are below 256). -/
theorem all255_le_prefix_iff : ∀ p : Bytes, (∀ b ∈ p, b = 255) →
    ∀ k : Bytes, (∀ b ∈ k, b < 256) → (bytesCmp p k ≠ .gt ↔ p <+: k) := by
  intro p
  induction p with
  | nil =>
    intro _ k _
    cases k <;> simp [bytesCmp, List.nil_prefix]
  | cons x rest ih =>
    intro hp k hk
    have hx : x = 255 := hp x (List.mem_cons_self _ _)
    subst hx
    cases k with
    | nil =>
      simp only [bytesCmp]
      constructor
      · intro h; exact absurd rfl h
      · intro h
        exact absurd (List.eq_nil_of_prefix_nil h) (by simp)
    | cons c ks =>
      have hc : c < 256 := hk c (List.mem_cons_self _ _)
      by_cases hlt : (255 : Nat) < c
      · omega
      · by_cases hgt : c < 255
        · simp only [bytesCmp, if_neg hlt, if_pos hgt]
          constructor
          · intro h; exact absurd rfl h
          · intro h
            rcases List.cons_prefix_cons.mp h with ⟨he, _⟩
            omega
        · have hce : c = 255 := by omega
          subst hce
          simp only [bytesCmp, if_neg hlt, if_neg hgt]
          rw [ih (fun b hb => hp b (List.mem_cons_of_mem _ hb)) ks
            (fun b hb => hk b (List.mem_cons_of_mem _ hb))]
          rw [List.cons_prefix_cons]
          simp

/-- The prefix-scan window characterizes extension: a key (with byte
values below 256) lies in [p, prefixScanEnd p) precisely when p is a
prefix of it. -/
theorem prefix_window : ∀ p k : Bytes, (∀ b ∈ p, b < 256) → (∀ b ∈ k, b < 256) →
    ((bytesCmp p k ≠ .gt ∧
        (match prefixScanEnd p with
         | some np => bytesCmp k np = .lt
         | none => True)) ↔ p <+: k) := by
  intro p
  induction p with
  | nil =>
    intro k _ _
    simp only [prefixScanEnd]
    cases k <;> simp [bytesCmp, List.nil_prefix]
  | cons x rest ih =>
    intro k hp hk
    have hx : x < 256 := hp x (List.mem_cons_self _ _)
    cases k with
    | nil =>
      constructor
      · rintro ⟨h1, _⟩
        exact absurd rfl h1
      · intro h
        exact absurd (List.eq_nil_of_prefix_nil h) (by simp)
    | cons c ks =>
      have hc : c < 256 := hk c (List.mem_cons_self _ _)
      have hkrec : ∀ b ∈ ks, b < 256 := fun b hb => hk b (List.mem_cons_of_mem _ hb)
      have hprec : ∀ b ∈ rest, b < 256 := fun b hb => hp b (List.mem_cons_of_mem _ hb)
      rw [List.cons_prefix_cons]
      rcases hr : prefixScanEnd rest with _ | r
      · have hall : ∀ b ∈ rest, b = 255 := prefixScanEnd_none_all255 rest hr
        by_cases h255 : x = 255
        · subst h255
          have hmv : prefixScanEnd (255 :: rest) = none := by
            simp [prefixScanEnd, hr]
          rw [hmv]
          by_cases hgt : c < 255
          · constructor
            · rintro ⟨h1, _⟩
              simp only [bytesCmp, if_neg (by omega : ¬ (255 : Nat) < c), if_pos hgt] at h1
              exact absurd rfl h1
            · rintro ⟨he, _⟩; omega
          · have hce : c = 255 := by omega
            subst hce
            constructor
            · rintro ⟨h1, _⟩
              simp only [bytesCmp, if_neg (Nat.lt_irrefl 255)] at h1
              exact ⟨rfl, (all255_le_prefix_iff rest hall ks hkrec).mp h1⟩
            · rintro ⟨_, hpre⟩
              refine ⟨?_, trivial⟩
              simp only [bytesCmp, if_neg (Nat.lt_irrefl 255)]
              exact (all255_le_prefix_iff rest hall ks hkrec).mpr hpre
        · have hmv : prefixScanEnd (x :: rest) = some [x + 1] := by
            simp [prefixScanEnd, hr, h255]
          rw [hmv]
          constructor
          · rintro ⟨h1, h2⟩
            have hcle : c ≤ x := by
              by_contra hgt2
              by_cases hq : c = x + 1
              · subst hq
                simp only [bytesCmp, if_neg (Nat.lt_irrefl (x + 1))] at h2
                cases ks with
                | nil => cases h2
                | cons a as => cases h2
              · have hbig : x + 1 < c := by omega
                simp only [bytesCmp, if_neg (by omega : ¬ c < x + 1), if_pos hbig] at h2
                cases h2
            have hxc : x = c := by
              by_cases hgtc : c < x
              · simp only [bytesCmp, if_neg (by omega : ¬ x < c), if_pos hgtc] at h1
                exact absurd rfl h1
              · omega
            subst hxc
            refine ⟨rfl, ?_⟩
            simp only [bytesCmp, if_neg (Nat.lt_irrefl x)] at h1
            exact (all255_le_prefix_iff rest hall ks hkrec).mp h1
          · rintro ⟨rfl, hpre⟩
            constructor
            · simp only [bytesCmp, if_neg (Nat.lt_irrefl x)]
              exact (all255_le_prefix_iff rest hall ks hkrec).mpr hpre
            · simp only [bytesCmp]
              rw [if_pos (by omega : x < x + 1)]
      · have hmv : prefixScanEnd (x :: rest) = some (x :: r) := by
          simp [prefixScanEnd, hr]
        rw [hmv]
        by_cases hlt : x < c
        · constructor
          · rintro ⟨_, h2⟩
            simp only [bytesCmp, if_neg (by omega : ¬ c < x), if_pos hlt] at h2
            cases h2
          · rintro ⟨he, _⟩; omega
        · by_cases hgt : c < x
          · constructor
            · rintro ⟨h1, _⟩
              simp only [bytesCmp, if_neg hlt, if_pos hgt] at h1
              exact absurd rfl h1
            · rintro ⟨he, _⟩; omega
          · have hxc : x = c := by omega
            subst hxc
            have hrec := ih ks hprec hkrec
            rw [hr] at hrec
            constructor
            · rintro ⟨h1, h2⟩
              simp only [bytesCmp, if_neg hlt, if_neg hgt] at h1 h2
              exact ⟨rfl, hrec.mp ⟨h1, h2⟩⟩
            · rintro ⟨_, hpre⟩
              have hres := hrec.mpr hpre
              constructor
              · simp only [bytesCmp, if_neg hlt, if_neg hgt]
                exact hres.1
              · simp only [bytesCmp, if_neg hlt, if_neg hgt]
                exact hres.2

/-- C6: for every ordered-map engine state (the BTreeMap backing the
memory engine and the key directory of the disk engine) whose keys are
byte strings, prefix_scan p is the range scan from p inclusive to the
incremented-last-non-255-byte bound exclusive (right-unbounded when
every byte of p is 255), and it returns exactly the stored entries
whose key has p as a prefix, still in ascending key order. -/
theorem claimC6_prefix_scan (s : List (Bytes × Bytes)) (p : Bytes)
    (hkeys : ∀ e ∈ s, ∀ b ∈ e.1, b < 256) (hp : ∀ b ∈ p, b < 256)
    (hsort : StoreSorted s) :
    prefixScan s p = storeScan s (ScanBound.incl p)
        (match prefixScanEnd p with
         | some np => ScanBound.excl np
         | none => ScanBound.unb)
    ∧ prefixScan s p = s.filter (fun e => p.isPrefixOf e.1)
    ∧ StoreSorted (prefixScan s p) := by
  refine ⟨rfl, ?_, storeScan_sorted hsort _ _⟩
  unfold prefixScan storeScan
  apply List.filter_congr
  intro e he
  have hkb : ∀ b ∈ e.1, b < 256 := hkeys e he
  have hw := prefix_window p e.1 hp hkb
  rcases hpe : prefixScanEnd p with _ | np
  · rw [hpe] at hw
    show (lowOk (ScanBound.incl p) e.1 && highOk ScanBound.unb e.1) = List.isPrefixOf p e.1
    rw [Bool.eq_iff_iff, Bool.and_eq_true, lowOk_incl_iff, List.isPrefixOf_iff_prefix]
    constructor
    · rintro ⟨h1, _⟩
      exact hw.mp ⟨h1, trivial⟩
    · intro hpre
      exact ⟨(hw.mpr hpre).1, by simp [highOk]⟩
  · rw [hpe] at hw
    show (lowOk (ScanBound.incl p) e.1 && highOk (ScanBound.excl np) e.1) =
      List.isPrefixOf p e.1
    rw [Bool.eq_iff_iff, Bool.and_eq_true, lowOk_incl_iff, highOk_excl_iff,
      List.isPrefixOf_iff_prefix]
    exact hw

/-- Witness for C6 at a concrete store and prefix. -/
theorem claimC6_prefix_scan_witness :
    (∀ e ∈ [(([97, 97] : Bytes), ([1] : Bytes)), ([97, 98], [2]), ([98], [3])],
        ∀ b ∈ e.1, b < 256)
    ∧ (∀ b ∈ ([97] : Bytes), b < 256)
    ∧ StoreSorted [(([97, 97] : Bytes), ([1] : Bytes)), ([97, 98], [2]), ([98], [3])]
    ∧ prefixScan [(([97, 97] : Bytes), ([1] : Bytes)), ([97, 98], [2]), ([98], [3])] [97] =
        [(([97, 97] : Bytes), ([1] : Bytes)), ([97, 98], [2]), ([98], [3])].filter
          (fun e => ([97] : Bytes).isPrefixOf e.1) := by
  have h1 : ∀ e ∈ [(([97, 97] : Bytes), ([1] : Bytes)), ([97, 98], [2]), ([98], [3])],
      ∀ b ∈ e.1, b < 256 := by decide
  have h2 : ∀ b ∈ ([97] : Bytes), b < 256 := by decide
  have h3 : StoreSorted [(([97, 97] : Bytes), ([1] : Bytes)), ([97, 98], [2]), ([98], [3])] := by
    unfold StoreSorted
    decide
  exact ⟨h1, h2, h3,
    (claimC6_prefix_scan [(([97, 97] : Bytes), ([1] : Bytes)), ([97, 98], [2]), ([98], [3])]
      [97] h1 h2 h3).2.1⟩

/-!
The MVCC transaction layer (src/storage/mvcc.rs), working over the
ordered byte-string store of the engine.
-/

/-- The engine state seen by the MVCC layer: encoded keys to raw
values. -/
abbrev Store := List (Bytes × Bytes)

/-- bincode (fixint, little-endian) serialization of Option (Vec u8):
tag byte 0 for None (the tombstone), tag byte 1 followed by the u64
length and the raw bytes for Some. -/
def binOpt : Option Bytes → Bytes
  | none => [0]
  | some v => 1 :: (le8 v.length ++ v)

/-- Little-endian value of a byte string. -/
def leVal (bs : Bytes) : Nat := beVal bs.reverse

/-- bincode deserialization of Option (Vec u8). -/
def binOptDec (bs : Bytes) : Option (Option Bytes) :=
  match bs with
  | [] => none
  | t :: rest =>
    if t = 0 then some none
    else if t = 1 then
      if 8 ≤ rest.length then
        if leVal (rest.take 8) ≤ (rest.drop 8).length then
          some (some ((rest.drop 8).take (leVal (rest.take 8))))
        else none
      else none
    else none

theorem le8_length (v : Nat) : (le8 v).length = 8 := by
  simp [le8, beBytes_length]

theorem leVal_le8 (v : Nat) (hv : v < 2 ^ 64) : leVal (le8 v) = v := by
  rw [le8, leVal, List.reverse_reverse, beVal_beBytes, Nat.mod_eq_of_lt]
  rw [h256pow]
  exact hv

theorem binOptDec_binOpt (w : Option Bytes) (hw : ∀ u, w = some u → u.length < 2 ^ 64) :
    binOptDec (binOpt w) = some w := by
  cases w with
  | none => rfl
  | some v =>
    have hlen : v.length < 2 ^ 64 := hw v rfl
    have h8 : (le8 v.length).length = 8 := le8_length _
    have ht : (le8 v.length ++ v).take 8 = le8 v.length := by
      rw [← h8]; exact List.take_left _ _
    have hd : (le8 v.length ++ v).drop 8 = v := by
      rw [← h8]; exact List.drop_left _ _
    have hcond : 8 ≤ (le8 v.length).length + v.length := by
      rw [h8]; omega
    simp [binOptDec, binOpt, hcond, ht, hd, leVal_le8 v.length hlen]

/-- TransactionState: the version of this transaction and the snapshot
of active versions taken at begin. -/
structure TxState where
  version : Nat
  active_version : List Nat

/-- is_visible: a version is invisible when it belongs to the active
snapshot, otherwise visible precisely when not newer than this
transaction. -/
def TxState.is_visible (st : TxState) (v : Nat) : Bool :=
  if v ∈ st.active_version then false else decide (v ≤ st.version)

/-- Loop body of MvccTransaction::get: walk entries newest first,
decode each key, return the decoded payload of the first visible
version; a key that is not a Version entry is an internal error. -/
def mvccGetLoop (st : TxState) : List (Bytes × Bytes) → Except DbError (Option Bytes)
  | [] => .ok none
  | (ek, ev) :: rest =>
    match deserializeMvccKey ek with
    | some (.version _ ver) =>
      if st.is_visible ver then
        match binOptDec ev with
        | some w => .ok w
        | none => .error .internal
      else mvccGetLoop st rest
    | _ => .error .internal

/-- MvccTransaction::get: scan Version(key, 0) ..= Version(key,
self.version) in reverse and return the first visible payload. -/
def mvccGet (s : Store) (st : TxState) (key : Bytes) : Except DbError (Option Bytes) :=
  mvccGetLoop st
    ((storeScan s (ScanBound.incl ((MvccKey.version key 0).encode))
      (ScanBound.incl ((MvccKey.version key st.version).encode))).reverse)

/-- Well-formedness of a reachable MVCC store: sorted, every key is the
encoding of a u64-bounded MvccKey, and every Version entry holds a
bincode-encoded optional value. -/
structure WfStore (s : Store) : Prop where
  sorted : StoreSorted s
  keys : ∀ e ∈ s, ∃ m : MvccKey, m.Bounded ∧ e.1 = m.encode
  versionVals : ∀ e ∈ s, ∀ k v, e.1 = (MvccKey.version k v).encode →
    ∃ w : Option Bytes, (∀ u, w = some u → u.length < 2 ^ 64) ∧ e.2 = binOpt w

theorem natCmp_ne_gt_iff (a b : Nat) : natCmp a b ≠ .gt ↔ a ≤ b := by
  unfold natCmp
  split
  · constructor
    · intro _; omega
    · intro _ h; cases h
  · split
    · constructor
      · intro h; exact absurd rfl h
      · intro h; omega
    · constructor
      · intro _; omega
      · intro _ h; cases h

/-- Version component comparison below / above a Version bound with the
same user key. -/
theorem version_between {m : MvccKey} (hm : m.Bounded) (key : Bytes) (lo hi : Nat)
    (hkey : ∀ b ∈ key, b < 256)
    (hlo : lo < 2 ^ 64) (hhi : hi < 2 ^ 64)
    (h1 : bytesCmp (MvccKey.version key lo).encode m.encode ≠ .gt)
    (h2 : bytesCmp m.encode (MvccKey.version key hi).encode ≠ .gt) :
    ∃ v, lo ≤ v ∧ v ≤ hi ∧ m = MvccKey.version key v := by
  have hb1 : (MvccKey.version key lo).Bounded := ⟨hlo, hkey⟩
  have hb2 : (MvccKey.version key hi).Bounded := ⟨hhi, hkey⟩
  rw [encode_cmp _ _ hb1 hm] at h1
  rw [encode_cmp _ _ hm hb2] at h2
  cases m with
  | nextVersion => simp [mvccCmp, MvccKey.tag, natCmp] at h1
  | activeTransactions v => simp [mvccCmp, MvccKey.tag, natCmp] at h1
  | write v k => simp [mvccCmp, MvccKey.tag, natCmp] at h1
  | version k2 v2 =>
    simp only [mvccCmp] at h1 h2
    rcases hc : bytesCmp key k2 with _ | _ | _
    · have hc2 : bytesCmp k2 key = .gt := by
        have hsw := bytesCmp_swap key k2
        rw [hc] at hsw
        exact hsw.symm
      rw [hc2] at h2
      exact absurd rfl h2
    · have hk : key = k2 := (bytesCmp_eq_iff key k2).mp hc
      subst hk
      rw [hc] at h1
      rw [bytesCmp_self] at h2
      have hl : lo ≤ v2 := by
        rw [show ordThen Ordering.eq (natCmp lo v2) = natCmp lo v2 from rfl] at h1
        exact (natCmp_ne_gt_iff lo v2).mp h1
      have hh : v2 ≤ hi := by
        rw [show ordThen Ordering.eq (natCmp v2 hi) = natCmp v2 hi from rfl] at h2
        exact (natCmp_ne_gt_iff v2 hi).mp h2
      exact ⟨v2, hl, hh, rfl⟩
    · rw [hc] at h1
      rw [ordThen_of_ne_eq (by intro h; cases h) _] at h1
      exact absurd rfl h1

/-- Characterization of a Version(key, lo) ..= Version(key, hi) range
scan over a well-formed store: it selects exactly the entries of the
versions of this user key lying in [lo, hi]. -/
theorem version_range_mem (s : Store) (hwf : WfStore s) (key : Bytes)
    (hkey : ∀ b ∈ key, b < 256) (lo hi : Nat)
    (hlo : lo < 2 ^ 64) (hhi : hi < 2 ^ 64) (e : Bytes × Bytes) :
    e ∈ storeScan s (ScanBound.incl ((MvccKey.version key lo).encode))
        (ScanBound.incl ((MvccKey.version key hi).encode)) ↔
      e ∈ s ∧ ∃ v, lo ≤ v ∧ v ≤ hi ∧ e.1 = (MvccKey.version key v).encode := by
  rw [mem_storeScan]
  constructor
  · rintro ⟨hes, hlow, hhigh⟩
    obtain ⟨m, hmb, hme⟩ := hwf.keys e hes
    rw [lowOk_incl_iff] at hlow
    rw [highOk_incl_iff] at hhigh
    rw [hme] at hlow hhigh
    obtain ⟨v, hv1, hv2, hveq⟩ := version_between hmb key lo hi hkey hlo hhi hlow hhigh
    exact ⟨hes, v, hv1, hv2, by rw [hme, hveq]⟩
  · rintro ⟨hes, v, hv1, hv2, hveq⟩
    have hvb : v < 2 ^ 64 := by omega
    refine ⟨hes, ?_, ?_⟩
    · rw [lowOk_incl_iff, hveq, encode_cmp (MvccKey.version key lo) (MvccKey.version key v)
        ⟨hlo, hkey⟩ ⟨hvb, hkey⟩]
      simp only [mvccCmp, bytesCmp_self]
      rw [show ordThen Ordering.eq (natCmp lo v) = natCmp lo v from rfl]
      exact (natCmp_ne_gt_iff lo v).mpr hv1
    · rw [highOk_incl_iff, hveq, encode_cmp (MvccKey.version key v) (MvccKey.version key hi)
        ⟨hvb, hkey⟩ ⟨hhi, hkey⟩]
      simp only [mvccCmp, bytesCmp_self]
      rw [show ordThen Ordering.eq (natCmp v hi) = natCmp v hi from rfl]
      exact (natCmp_ne_gt_iff v hi).mpr hv2

theorem is_visible_iff (st : TxState) (v : Nat) :
    st.is_visible v = true ↔ (v ∉ st.active_version ∧ v ≤ st.version) := by
  by_cases h : v ∈ st.active_version <;> simp [TxState.is_visible, h]

/-- Version component read back from an encoded entry (helper for
stating the get-loop invariant). -/
def entryVersion (e : Bytes × Bytes) : Nat :=
  match deserializeMvccKey e.1 with
  | some (.version _ v) => v
  | _ => 0

theorem mvccGetLoop_spec (st : TxState) (key : Bytes) (hkey : ∀ b ∈ key, b < 256) :
    ∀ l : List (Bytes × Bytes),
    (∀ e ∈ l, (∃ v, v ≤ st.version ∧ v < 2 ^ 64 ∧ e.1 = (MvccKey.version key v).encode) ∧
      ∃ w, binOptDec e.2 = some w) →
    l.Pairwise (fun a b => entryVersion b < entryVersion a) →
    ∃ r, mvccGetLoop st l = .ok r ∧
      ((∃ e ∈ l, st.is_visible (entryVersion e) = true) →
        ∃ e ∈ l, st.is_visible (entryVersion e) = true ∧
          (∀ e2 ∈ l, st.is_visible (entryVersion e2) = true →
            entryVersion e2 ≤ entryVersion e) ∧
          binOptDec e.2 = some r) ∧
      ((∀ e ∈ l, ¬ st.is_visible (entryVersion e) = true) → r = none) := by
  intro l
  induction l with
  | nil =>
    intro _ _
    refine ⟨none, rfl, ?_, fun _ => rfl⟩
    rintro ⟨e, he, _⟩
    cases he
  | cons e l ih =>
    intro hA hB
    obtain ⟨ek, ev⟩ := e
    obtain ⟨⟨v, hvle, hvb, hek⟩, ⟨w, hdec⟩⟩ := hA (ek, ev) (List.mem_cons_self _ _)
    simp only at hek hdec
    have hkdec : deserializeMvccKey ek = some (.version key v) := by
      rw [hek]
      exact deserialize_encode_eq _ ⟨hvb, hkey⟩
    have hventry : entryVersion (ek, ev) = v := by
      unfold entryVersion
      simp [hkdec]
    by_cases hvis : st.is_visible v = true
    · refine ⟨w, ?_, ?_, ?_⟩
      · simp [mvccGetLoop, hkdec, hvis, hdec]
      · intro _
        refine ⟨(ek, ev), List.mem_cons_self _ _, by rw [hventry]; exact hvis, ?_, hdec⟩
        intro e2 he2 hvis2
        rcases List.mem_cons.mp he2 with rfl | he2
        · rw [hventry]
        · rw [hventry]
          have hlt := (List.pairwise_cons.mp hB).1 e2 he2
          rw [hventry] at hlt
          exact Nat.le_of_lt hlt
      · intro hall
        exact absurd (hventry ▸ hvis) (hall (ek, ev) (List.mem_cons_self _ _))
    · obtain ⟨r, hr, h2, h3⟩ := ih
        (fun e2 he2 => hA e2 (List.mem_cons_of_mem _ he2))
        (List.Pairwise.of_cons hB)
      refine ⟨r, ?_, ?_, ?_⟩
      · simp [mvccGetLoop, hkdec, hvis, hr]
      · rintro ⟨e2, he2, hvis2⟩
        rcases List.mem_cons.mp he2 with rfl | he2
        · exact absurd (hventry ▸ hvis2) hvis
        · obtain ⟨emax, hmem, hv, hbound, hdecr⟩ := h2 ⟨e2, he2, hvis2⟩
          refine ⟨emax, List.mem_cons_of_mem _ hmem, hv, ?_, hdecr⟩
          intro e3 he3 hvis3
          rcases List.mem_cons.mp he3 with rfl | he3
          · exact absurd (hventry ▸ hvis3) hvis
          · exact hbound e3 he3 hvis3
      · intro hall
        exact h3 (fun e2 he2 => hall e2 (List.mem_cons_of_mem _ he2))

/-- A version is visible for transaction state st and present in the
store for the given user key. -/
def presentVisible (s : Store) (st : TxState) (key : Bytes) (v : Nat) : Prop :=
  (∃ val, storeLookup s ((MvccKey.version key v).encode) = some val) ∧
    st.is_visible v = true

/-- C1: MvccTransaction::get over a well-formed store returns, without
error, the decoded payload of the Version(key, v2) entry with the
greatest v2 that is visible (v2 not in the active snapshot and v2 not
above the transaction version); the result is None exactly when that
payload is a tombstone or when no visible version of the key exists —
entries of active or newer versions are never returned. -/
theorem claimC1_mvcc_get (s : Store) (st : TxState) (key : Bytes)
    (hkey : ∀ b ∈ key, b < 256)
    (hwf : WfStore s) (hv : st.version < 2 ^ 64) :
    ∃ r : Option Bytes, mvccGet s st key = .ok r ∧
      ((∃ v, presentVisible s st key v) →
        ∃ vmax, presentVisible s st key vmax ∧
          (∀ v2, presentVisible s st key v2 → v2 ≤ vmax) ∧
          storeLookup s ((MvccKey.version key vmax).encode) = some (binOpt r)) ∧
      ((¬ ∃ v, presentVisible s st key v) → r = none) := by
  have h0 : (0 : Nat) < 2 ^ 64 := by norm_num
  set L := storeScan s (ScanBound.incl ((MvccKey.version key 0).encode))
    (ScanBound.incl ((MvccKey.version key st.version).encode)) with hL
  have hmemL : ∀ e, e ∈ L ↔ e ∈ s ∧ ∃ v2, v2 ≤ st.version ∧
      e.1 = (MvccKey.version key v2).encode := by
    intro e
    rw [hL, version_range_mem s hwf key hkey 0 st.version h0 hv e]
    constructor
    · rintro ⟨hes, v2, _, hle, heq⟩
      exact ⟨hes, v2, hle, heq⟩
    · rintro ⟨hes, v2, hle, heq⟩
      exact ⟨hes, v2, Nat.zero_le _, hle, heq⟩
  have hshape : ∀ e ∈ L, (∃ v2, v2 ≤ st.version ∧ v2 < 2 ^ 64 ∧
      e.1 = (MvccKey.version key v2).encode) ∧ ∃ w, binOptDec e.2 = some w := by
    intro e heL
    obtain ⟨hes, v2, hle, heq⟩ := (hmemL e).mp heL
    have hv2 : v2 < 2 ^ 64 := by omega
    obtain ⟨w, hwlen, hwv⟩ := hwf.versionVals e hes key v2 heq
    exact ⟨⟨v2, hle, hv2, heq⟩, w, by rw [hwv]; exact binOptDec_binOpt w hwlen⟩
  have hEv : ∀ e ∈ L, ∀ v2, e.1 = (MvccKey.version key v2).encode → v2 < 2 ^ 64 →
      entryVersion e = v2 := by
    intro e _ v2 heq hv2
    unfold entryVersion
    rw [heq, deserialize_encode_eq (MvccKey.version key v2) ⟨hv2, hkey⟩]
  have hsortL : StoreSorted L := storeScan_sorted hwf.sorted _ _
  have hpairL : L.Pairwise (fun a b => entryVersion a < entryVersion b) := by
    refine List.Pairwise.imp_of_mem ?_ hsortL
    intro a b ha hb hlt
    obtain ⟨⟨va, hvale, hvab, haeq⟩, _⟩ := hshape a ha
    obtain ⟨⟨vb, hvble, hvbb, hbeq⟩, _⟩ := hshape b hb
    rw [hEv a ha va haeq hvab, hEv b hb vb hbeq hvbb]
    rw [haeq, hbeq, encode_cmp (MvccKey.version key va) (MvccKey.version key vb)
      ⟨hvab, hkey⟩ ⟨hvbb, hkey⟩] at hlt
    simp only [mvccCmp, bytesCmp_self] at hlt
    rw [show ordThen Ordering.eq (natCmp va vb) = natCmp va vb from rfl] at hlt
    exact (natCmp_lt_iff va vb).mp hlt
  have hpairRev : L.reverse.Pairwise (fun a b => entryVersion b < entryVersion a) := by
    rw [List.pairwise_reverse]
    exact hpairL
  have hshapeRev : ∀ e ∈ L.reverse, (∃ v2, v2 ≤ st.version ∧ v2 < 2 ^ 64 ∧
      e.1 = (MvccKey.version key v2).encode) ∧ ∃ w, binOptDec e.2 = some w := by
    intro e he
    exact hshape e (List.mem_reverse.mp he)
  obtain ⟨r, hr, h2, h3⟩ := mvccGetLoop_spec st key hkey L.reverse hshapeRev hpairRev
  have hlink : ∀ v2, presentVisible s st key v2 ↔
      ∃ e ∈ L.reverse, entryVersion e = v2 ∧ st.is_visible (entryVersion e) = true := by
    intro v2
    constructor
    · rintro ⟨⟨val, hlook⟩, hvis⟩
      have hmem : ((MvccKey.version key v2).encode, val) ∈ s :=
        mem_of_storeLookup_eq_some hlook
      have hle : v2 ≤ st.version := ((is_visible_iff st v2).mp hvis).2
      have heL : ((MvccKey.version key v2).encode, val) ∈ L :=
        (hmemL _).mpr ⟨hmem, v2, hle, rfl⟩
      have hv2 : v2 < 2 ^ 64 := by omega
      have hev : entryVersion ((MvccKey.version key v2).encode, val) = v2 :=
        hEv _ heL v2 rfl hv2
      exact ⟨_, List.mem_reverse.mpr heL, hev, by rw [hev]; exact hvis⟩
    · rintro ⟨e, he, hev, hvis⟩
      have heL : e ∈ L := List.mem_reverse.mp he
      obtain ⟨hes, v3, hle, heq⟩ := (hmemL e).mp heL
      have hv3 : v3 < 2 ^ 64 := by omega
      have hev3 : entryVersion e = v3 := hEv e heL v3 heq hv3
      have hv23 : v2 = v3 := by rw [← hev, hev3]
      subst hv23
      have hlook : storeLookup s e.1 = some e.2 := by
        have : (e.1, e.2) ∈ s := by simpa using hes
        exact storeLookup_eq_some_of_mem hwf.sorted this
      rw [heq] at hlook
      exact ⟨⟨e.2, hlook⟩, by rw [← hev3]; exact hvis⟩
  refine ⟨r, hr, ?_, ?_⟩
  · rintro ⟨v2, hpv⟩
    obtain ⟨e2, he2, hev2, hvis2⟩ := (hlink v2).mp hpv
    obtain ⟨emax, hmem, hvmax, hbound, hdecr⟩ := h2 ⟨e2, he2, hvis2⟩
    obtain ⟨⟨vm, hvmle, hvmb, hmeq⟩, ⟨wm, hwm⟩⟩ := hshapeRev emax hmem
    have heL : emax ∈ L := List.mem_reverse.mp hmem
    have hevm : entryVersion emax = vm := hEv emax heL vm hmeq hvmb
    have hesm : emax ∈ s := ((hmemL emax).mp heL).1
    have hlookm : storeLookup s emax.1 = some emax.2 := by
      have : (emax.1, emax.2) ∈ s := by simpa using hesm
      exact storeLookup_eq_some_of_mem hwf.sorted this
    obtain ⟨w2, hw2len, hw2v⟩ := hwf.versionVals emax hesm key vm hmeq
    have hw2dec : binOptDec emax.2 = some w2 := by
      rw [hw2v]; exact binOptDec_binOpt w2 hw2len
    have hw2r : w2 = r := by
      rw [hw2dec] at hdecr
      exact Option.some.inj hdecr
    refine ⟨vm, ?_, ?_, ?_⟩
    · exact (hlink vm).mpr ⟨emax, hmem, hevm, hvmax⟩
    · intro v3 hpv3
      obtain ⟨e3, he3, hev3, hvis3⟩ := (hlink v3).mp hpv3
      have := hbound e3 he3 hvis3
      rw [hev3, hevm] at this
      exact this
    · rw [← hmeq, hlookm, hw2v, hw2r]
  · intro hno
    apply h3
    intro e he hvise
    apply hno
    obtain ⟨⟨v2, hle, hv2, heq⟩, _⟩ := hshapeRev e he
    have heL : e ∈ L := List.mem_reverse.mp he
    have hev : entryVersion e = v2 := hEv e heL v2 heq hv2
    refine ⟨v2, (hlink v2).mpr ⟨e, he, hev, hvise⟩⟩

/-- Witness for C1 at a concrete store (one committed version of the
key) and transaction state. -/
theorem claimC1_mvcc_get_witness :
    WfStore [((MvccKey.version [107] 1).encode, binOpt (some [5]))] ∧
      (1 : Nat) < 2 ^ 64 ∧
      (∃ r : Option Bytes,
        mvccGet [((MvccKey.version [107] 1).encode, binOpt (some [5]))]
          ⟨1, []⟩ [107] = .ok r ∧
        ((∃ v, presentVisible [((MvccKey.version [107] 1).encode, binOpt (some [5]))]
            ⟨1, []⟩ [107] v) →
          ∃ vmax, presentVisible [((MvccKey.version [107] 1).encode, binOpt (some [5]))]
              ⟨1, []⟩ [107] vmax ∧
            (∀ v2, presentVisible [((MvccKey.version [107] 1).encode, binOpt (some [5]))]
                ⟨1, []⟩ [107] v2 → v2 ≤ vmax) ∧
            storeLookup [((MvccKey.version [107] 1).encode, binOpt (some [5]))]
              ((MvccKey.version [107] vmax).encode) = some (binOpt r)) ∧
        ((¬ ∃ v, presentVisible [((MvccKey.version [107] 1).encode, binOpt (some [5]))]
            ⟨1, []⟩ [107] v) → r = none)) := by
  have hb : (MvccKey.version [107] 1).Bounded :=
    ⟨by norm_num, by decide⟩
  have hwf : WfStore [((MvccKey.version [107] 1).encode, binOpt (some [5]))] := by
    refine ⟨?_, ?_, ?_⟩
    · exact List.pairwise_singleton _ _
    · intro e he
      rcases List.mem_cons.mp he with rfl | he
      · exact ⟨MvccKey.version [107] 1, hb, rfl⟩
      · cases he
    · intro e he k v heq
      rcases List.mem_cons.mp he with rfl | he
      · refine ⟨some [5], ?_, rfl⟩
        intro u hu
        have : ([5] : Bytes) = u := Option.some.inj hu
        rw [← this]
        norm_num
      · cases he
  have hv : (1 : Nat) < 2 ^ 64 := by norm_num
  exact ⟨hwf, hv,
    claimC1_mvcc_get [((MvccKey.version [107] 1).encode, binOpt (some [5]))] ⟨1, []⟩ [107]
      (by decide) hwf hv⟩

/-- Conflict check of MvccTransaction::update: take the newest entry in
the scanned window [Version(key, min-active-or-version-plus-one),
Version(key, u64::MAX)] and fail with WriteConflict when it is not
visible. -/
def mvccUpdateCheck (s : Store) (st : TxState) (key : Bytes) : Except DbError Unit :=
  match (storeScan s
      (ScanBound.incl ((MvccKey.version key
        ((st.active_version.min?).getD (st.version + 1))).encode))
      (ScanBound.incl ((MvccKey.version key (2 ^ 64 - 1)).encode))).getLast? with
  | some e =>
    match deserializeMvccKey e.1 with
    | some (.version _ ver) =>
      if st.is_visible ver then .ok () else .error .writeConflict
    | _ => .error .internal
  | none => .ok ()

/-- MvccTransaction::update, the common write path of set and delete:
run the conflict check, then write the Write(version, key) manifest
entry and the Version(key, version) data entry.  On error nothing is
written (the input store is left untouched). -/
def mvccUpdate (s : Store) (st : TxState) (key : Bytes) (value : Option Bytes) :
    Except DbError Store :=
  match mvccUpdateCheck s st key with
  | .error e => .error e
  | .ok _ =>
    .ok (storeSet (storeSet s (MvccKey.write st.version key).encode [])
      ((MvccKey.version key st.version).encode) (binOpt value))

/-- Specification-side window low bound: the minimum of the active set
together with version + 1. -/
def specWindowLow (st : TxState) : Nat :=
  match st.active_version.min? with
  | some m => min m (st.version + 1)
  | none => st.version + 1

/-- The store has a version of this user key inside the conflict
window. -/
def presentInWindow (s : Store) (st : TxState) (key : Bytes) (v : Nat) : Prop :=
  specWindowLow st ≤ v ∧ v ≤ 2 ^ 64 - 1 ∧
    ∃ val, storeLookup s ((MvccKey.version key v).encode) = some val

/-- The maximum of a sorted list is its last element. -/
theorem pairwise_getLast {α : Type} {R : α → α → Prop} :
    ∀ {l : List α} {e : α}, l.Pairwise R → l.getLast? = some e →
      ∀ e2 ∈ l, e2 = e ∨ R e2 e := by
  intro l
  induction l with
  | nil =>
    intro e _ hlast
    cases hlast
  | cons a t ih =>
    intro e hp hlast e2 he2
    cases t with
    | nil =>
      simp only [List.getLast?_singleton] at hlast
      cases hlast
      rcases List.mem_cons.mp he2 with rfl | he2
      · exact Or.inl rfl
      · cases he2
    | cons b t2 =>
      have hlast2 : (b :: t2).getLast? = some e := by
        rw [List.getLast?_cons_cons] at hlast
        exact hlast
      rcases List.mem_cons.mp he2 with rfl | he2
      · have hmem : e ∈ b :: t2 := by
          have := List.getLast?_eq_getLast (b :: t2) (by simp)
          rw [this] at hlast2
          have he : e = (b :: t2).getLast (by simp) := (Option.some.inj hlast2).symm
          rw [he]
          exact List.getLast_mem _
        exact Or.inr ((List.pairwise_cons.mp hp).1 e hmem)
      · exact ih (List.Pairwise.of_cons hp) hlast2 e2 he2

/-- C2: for a valid transaction state (every active version below this
transaction's version) over a well-formed store, the common write path
update(key, value) fails — and then only with WriteConflict — exactly
when the newest stored Version(key, v) with v in the window
[min(active ∪ {version+1}), u64::MAX] exists and is invisible; when it
succeeds the produced store is the input store with exactly the two
entries Write(version, key) (empty value) and Version(key, version)
(the bincode-encoded optional value) inserted. -/
theorem claimC2_mvcc_update (s : Store) (st : TxState) (key : Bytes) (value : Option Bytes)
    (hkey : ∀ b ∈ key, b < 256)
    (hwf : WfStore s) (hvb : st.version + 1 < 2 ^ 64)
    (hact : ∀ a ∈ st.active_version, a < st.version) :
    ((∃ e, mvccUpdate s st key value = .error e) ↔
      (∃ vstar, presentInWindow s st key vstar ∧
        (∀ v2, presentInWindow s st key v2 → v2 ≤ vstar) ∧
        st.is_visible vstar = false)) ∧
    (∀ e, mvccUpdate s st key value = .error e → e = .writeConflict) ∧
    (∀ s2, mvccUpdate s st key value = .ok s2 →
      s2 = storeSet (storeSet s (MvccKey.write st.version key).encode [])
        ((MvccKey.version key st.version).encode) (binOpt value)) := by
  have hmax : (2 : Nat) ^ 64 - 1 < 2 ^ 64 := by norm_num
  have hlow_eq : (st.active_version.min?).getD (st.version + 1) = specWindowLow st := by
    unfold specWindowLow
    rcases hm : st.active_version.min? with _ | m
    · rfl
    · have hmem : m ∈ st.active_version := List.min?_mem (fun a b => min_choice a b) hm
      have hlt := hact m hmem
      show m = min m (st.version + 1)
      omega
  have hle1 : specWindowLow st ≤ st.version + 1 := by
    unfold specWindowLow
    rcases hm : st.active_version.min? with _ | m
    · exact Nat.le_refl _
    · exact min_le_right _ _
  have hloww : specWindowLow st < 2 ^ 64 := by omega
  set L := storeScan s
      (ScanBound.incl ((MvccKey.version key (specWindowLow st)).encode))
      (ScanBound.incl ((MvccKey.version key (2 ^ 64 - 1)).encode)) with hLdef
  have hmemL : ∀ e, e ∈ L ↔ e ∈ s ∧ ∃ v2, specWindowLow st ≤ v2 ∧ v2 ≤ 2 ^ 64 - 1 ∧
      e.1 = (MvccKey.version key v2).encode := by
    intro e
    rw [hLdef]
    exact version_range_mem s hwf key hkey _ _ hloww hmax e
  have hmem_of_present : ∀ v2, presentInWindow s st key v2 →
      ∃ val, ((MvccKey.version key v2).encode, val) ∈ L := by
    rintro v2 ⟨hl, hh, val, hlook⟩
    exact ⟨val, (hmemL _).mpr ⟨mem_of_storeLookup_eq_some hlook, v2, hl, hh, rfl⟩⟩
  have hpresent_of_mem : ∀ e ∈ L, ∃ v2, specWindowLow st ≤ v2 ∧ v2 ≤ 2 ^ 64 - 1 ∧
      e.1 = (MvccKey.version key v2).encode ∧ presentInWindow s st key v2 := by
    intro e heL
    obtain ⟨hes, v2, hl2, hh2, heq⟩ := (hmemL e).mp heL
    have hlook : storeLookup s e.1 = some e.2 := by
      have : (e.1, e.2) ∈ s := by simpa using hes
      exact storeLookup_eq_some_of_mem hwf.sorted this
    rw [heq] at hlook
    exact ⟨v2, hl2, hh2, heq, hl2, hh2, e.2, hlook⟩
  have hscan_eq : storeScan s
      (ScanBound.incl ((MvccKey.version key
        ((st.active_version.min?).getD (st.version + 1))).encode))
      (ScanBound.incl ((MvccKey.version key (2 ^ 64 - 1)).encode)) = L := by
    rw [hlow_eq, hLdef]
  have hsortL : StoreSorted L := by
    rw [hLdef]
    exact storeScan_sorted hwf.sorted _ _
  rcases hlast : L.getLast? with _ | e
  · have hLnil : L = [] := by
      cases hL2 : L with
      | nil => rfl
      | cons a t =>
        rw [hL2] at hlast
        rw [List.getLast?_eq_getLast _ (by simp)] at hlast
        cases hlast
    have hcheck : mvccUpdateCheck s st key = .ok () := by
      unfold mvccUpdateCheck
      rw [hscan_eq, hlast]
    have hupd : mvccUpdate s st key value =
        .ok (storeSet (storeSet s (MvccKey.write st.version key).encode [])
          ((MvccKey.version key st.version).encode) (binOpt value)) := by
      unfold mvccUpdate
      rw [hcheck]
    refine ⟨?_, ?_, ?_⟩
    · constructor
      · rintro ⟨e2, he2⟩
        rw [hupd] at he2
        cases he2
      · rintro ⟨vstar, hpres, _, _⟩
        obtain ⟨val, hmem⟩ := hmem_of_present vstar hpres
        rw [hLnil] at hmem
        cases hmem
    · intro e2 he2
      rw [hupd] at he2
      cases he2
    · intro s2 hs2
      rw [hupd] at hs2
      exact (Except.ok.inj hs2).symm
  · have heL : e ∈ L := by
      have : ∀ (l : List (Bytes × Bytes)), l.getLast? = some e → e ∈ l := by
        intro l
        induction l with
        | nil => intro h; cases h
        | cons a t ih =>
          intro h
          cases t with
          | nil =>
            simp only [List.getLast?_singleton] at h
            cases h
            exact List.mem_cons_self _ _
          | cons b t2 =>
            rw [List.getLast?_cons_cons] at h
            exact List.mem_cons_of_mem _ (ih h)
      exact this L hlast
    obtain ⟨ve, hvel, hveh, heq, hpres⟩ := hpresent_of_mem e heL
    have hveb : ve < 2 ^ 64 := by omega
    have hdec : deserializeMvccKey e.1 = some (.version key ve) := by
      rw [heq]
      exact deserialize_encode_eq _ ⟨hveb, hkey⟩
    have hmaxe : ∀ v2, presentInWindow s st key v2 → v2 ≤ ve := by
      intro v2 hp2
      have hv2b : v2 < 2 ^ 64 := by
        obtain ⟨_, hh2, _⟩ := hp2
        omega
      obtain ⟨val, hmem⟩ := hmem_of_present v2 hp2
      rcases pairwise_getLast hsortL hlast _ hmem with hee | hlt
      · have heq2 : (MvccKey.version key v2).encode = e.1 := congrArg Prod.fst hee
        rw [heq] at heq2
        have := @encode_inj (MvccKey.version key v2) (MvccKey.version key ve)
          ⟨hv2b, hkey⟩ ⟨hveb, hkey⟩ heq2
        cases this
        exact Nat.le_refl _
      · have hlt2 : bytesCmp (MvccKey.version key v2).encode e.1 = .lt := hlt
        rw [heq, encode_cmp (MvccKey.version key v2) (MvccKey.version key ve)
          ⟨hv2b, hkey⟩ ⟨hveb, hkey⟩] at hlt2
        simp only [mvccCmp, bytesCmp_self] at hlt2
        rw [show ordThen Ordering.eq (natCmp v2 ve) = natCmp v2 ve from rfl] at hlt2
        exact Nat.le_of_lt ((natCmp_lt_iff v2 ve).mp hlt2)
    by_cases hvis : st.is_visible ve = true
    · have hcheck : mvccUpdateCheck s st key = .ok () := by
        unfold mvccUpdateCheck
        rw [hscan_eq, hlast]
        simp [hdec, hvis]
      have hupd : mvccUpdate s st key value =
          .ok (storeSet (storeSet s (MvccKey.write st.version key).encode [])
            ((MvccKey.version key st.version).encode) (binOpt value)) := by
        unfold mvccUpdate
        rw [hcheck]
      refine ⟨?_, ?_, ?_⟩
      · constructor
        · rintro ⟨e2, he2⟩
          rw [hupd] at he2
          cases he2
        · rintro ⟨vstar, hpresS, hmaxS, hinvisS⟩
          have h1 : vstar ≤ ve := hmaxe vstar hpresS
          have h2 : ve ≤ vstar := hmaxS ve hpres
          have : vstar = ve := by omega
          rw [this, hvis] at hinvisS
          cases hinvisS
      · intro e2 he2
        rw [hupd] at he2
        cases he2
      · intro s2 hs2
        rw [hupd] at hs2
        exact (Except.ok.inj hs2).symm
    · have hvisf : st.is_visible ve = false := by
        cases hb : st.is_visible ve
        · rfl
        · exact absurd hb hvis
      have hcheck : mvccUpdateCheck s st key = .error .writeConflict := by
        unfold mvccUpdateCheck
        rw [hscan_eq, hlast]
        simp [hdec, hvisf]
      have hupd : mvccUpdate s st key value = .error .writeConflict := by
        unfold mvccUpdate
        rw [hcheck]
      refine ⟨?_, ?_, ?_⟩
      · constructor
        · intro _
          exact ⟨ve, hpres, hmaxe, hvisf⟩
        · intro _
          exact ⟨.writeConflict, hupd⟩
      · intro e2 he2
        rw [hupd] at he2
        exact (Except.error.inj he2).symm
      · intro s2 hs2
        rw [hupd] at hs2
        cases hs2

/-- Witness for C2 at a concrete store and transaction state. -/
theorem claimC2_mvcc_update_witness :
    WfStore [] ∧ (1 : Nat) + 1 < 2 ^ 64 ∧ (∀ a ∈ ([] : List Nat), a < 1) ∧
      (((∃ e, mvccUpdate [] ⟨1, []⟩ [107] (some [5]) = .error e) ↔
        (∃ vstar, presentInWindow [] ⟨1, []⟩ [107] vstar ∧
          (∀ v2, presentInWindow [] ⟨1, []⟩ [107] v2 → v2 ≤ vstar) ∧
          TxState.is_visible ⟨1, []⟩ vstar = false)) ∧
      (∀ e, mvccUpdate [] ⟨1, []⟩ [107] (some [5]) = .error e → e = .writeConflict) ∧
      (∀ s2, mvccUpdate [] ⟨1, []⟩ [107] (some [5]) = .ok s2 →
        s2 = storeSet (storeSet [] (MvccKey.write 1 [107]).encode [])
          ((MvccKey.version [107] 1).encode) (binOpt (some [5])))) := by
  have hwf : WfStore [] := by
    refine ⟨List.Pairwise.nil, ?_, ?_⟩
    · intro e he; cases he
    · intro e he; cases he
  have hvb : (1 : Nat) + 1 < 2 ^ 64 := by norm_num
  have hact : ∀ a ∈ ([] : List Nat), a < 1 := by intro a ha; cases ha
  exact ⟨hwf, hvb, hact,
    claimC2_mvcc_update [] ⟨1, []⟩ [107] (some [5]) (by decide) hwf hvb hact⟩

theorem escapeBytes_mem_lt (k : Bytes) (hk : ∀ c ∈ k, c < 256) :
    ∀ b ∈ escapeBytes k, b < 256 := by
  induction k with
  | nil => intro b hb; cases hb
  | cons c rest ih =>
    intro b hb
    have hc : c < 256 := hk c (List.mem_cons_self _ _)
    have hrest : ∀ c2 ∈ rest, c2 < 256 := fun c2 hc2 => hk c2 (List.mem_cons_of_mem _ hc2)
    simp only [escapeBytes, List.mem_append] at hb
    rcases hb with hb | hb
    · by_cases h0 : c = 0
      · rw [if_pos h0] at hb
        simp only [List.mem_cons, List.not_mem_nil, or_false] at hb
        rcases hb with rfl | rfl <;> omega
      · rw [if_neg h0] at hb
        simp only [List.mem_cons, List.not_mem_nil, or_false] at hb
        rw [hb]
        exact hc
    · exact ih hrest b hb

theorem serBytes_mem_lt (k : Bytes) (hk : ∀ c ∈ k, c < 256) :
    ∀ b ∈ serBytes k, b < 256 := by
  intro b hb
  simp only [serBytes, List.mem_append] at hb
  rcases hb with hb | hb
  · exact escapeBytes_mem_lt k hk b hb
  · simp only [List.mem_cons, List.not_mem_nil, or_false] at hb
    rcases hb with rfl | rfl <;> omega

/-- Every byte of an encoded bounded key is below 256. -/
theorem encode_bytes_lt (m : MvccKey) (hm : m.Bounded) : ∀ b ∈ m.encode, b < 256 := by
  cases m with
  | nextVersion =>
    intro b hb
    simp only [MvccKey.encode, List.mem_cons, List.not_mem_nil, or_false] at hb
    omega
  | activeTransactions v =>
    intro b hb
    simp only [MvccKey.encode, List.mem_cons] at hb
    rcases hb with rfl | hb
    · omega
    · exact beBytes_mem_lt 8 v b hb
  | write v k =>
    intro b hb
    simp only [MvccKey.encode, List.mem_cons, List.mem_append] at hb
    rcases hb with rfl | hb | hb
    · omega
    · exact beBytes_mem_lt 8 v b hb
    · exact serBytes_mem_lt k hm.2 b hb
  | version k v =>
    intro b hb
    simp only [MvccKey.encode, List.mem_cons, List.mem_append] at hb
    rcases hb with rfl | hb | hb
    · omega
    · exact serBytes_mem_lt k hm.2 b hb
    · exact beBytes_mem_lt 8 v b hb

/-- Pointwise characterization of membership in a prefix scan. -/
theorem mem_prefixScan {α : Type} (s : List (Bytes × α)) (p : Bytes)
    (hp : ∀ b ∈ p, b < 256) (e : Bytes × α) (hk : ∀ b ∈ e.1, b < 256) :
    e ∈ prefixScan s p ↔ e ∈ s ∧ p <+: e.1 := by
  unfold prefixScan
  rw [mem_storeScan]
  have hw := prefix_window p e.1 hp hk
  rcases hpe : prefixScanEnd p with _ | np
  · rw [hpe] at hw
    constructor
    · rintro ⟨hes, hlow, _⟩
      rw [lowOk_incl_iff] at hlow
      exact ⟨hes, hw.mp ⟨hlow, trivial⟩⟩
    · rintro ⟨hes, hpre⟩
      refine ⟨hes, ?_, by simp [highOk]⟩
      rw [lowOk_incl_iff]
      exact (hw.mpr hpre).1
  · rw [hpe] at hw
    constructor
    · rintro ⟨hes, hlow, hhigh⟩
      rw [lowOk_incl_iff] at hlow
      rw [highOk_excl_iff] at hhigh
      exact ⟨hes, hw.mp ⟨hlow, hhigh⟩⟩
    · rintro ⟨hes, hpre⟩
      have := hw.mpr hpre
      refine ⟨hes, ?_, ?_⟩
      · rw [lowOk_incl_iff]; exact this.1
      · rw [highOk_excl_iff]; exact this.2

/-- A prefix of an append that is no longer than the left part is a
prefix of the left part, hence equal to it when the lengths agree. -/
theorem prefix_append_eq_left {a b c : Bytes} (h : a <+: b ++ c)
    (hl : a.length = b.length) : a = b := by
  obtain ⟨t, ht⟩ := h
  have h1 : (a ++ t).take a.length = (b ++ c).take a.length := by rw [ht]
  rw [List.take_left, hl, List.take_left] at h1
  exact h1

/-- The Write(v) prefix selects exactly the Write(v, _) keys among
encoded bounded keys. -/
theorem prefix_write_iff (n : Nat) (m : MvccKey) (hm : m.Bounded) (hn : n < 2 ^ 64) :
    (2 :: be8 n) <+: m.encode ↔ ∃ k, m = MvccKey.write n k := by
  cases m with
  | nextVersion =>
    constructor
    · intro h
      have := h.length_le
      simp [be8, beBytes_length, MvccKey.encode] at this
    · rintro ⟨k, hk⟩; cases hk
  | activeTransactions v =>
    constructor
    · intro h
      rcases List.cons_prefix_cons.mp h with ⟨h1, _⟩
      cases h1
    · rintro ⟨k, hk⟩; cases hk
  | write v k =>
    constructor
    · intro h
      rcases List.cons_prefix_cons.mp h with ⟨_, h2⟩
      have hlen : (be8 n).length = (be8 v).length := by simp [be8, beBytes_length]
      have heq : be8 n = be8 v := prefix_append_eq_left h2 hlen
      have hv : n = v := beBytes_inj (by rw [h256pow]; exact hn)
        (by rw [h256pow]; exact hm.1) heq
      exact ⟨k, by rw [hv]⟩
    · rintro ⟨k2, hk⟩
      rw [hk]
      exact ⟨serBytes k2, by simp [MvccKey.encode]⟩
  | version k v =>
    constructor
    · intro h
      rcases List.cons_prefix_cons.mp h with ⟨h1, _⟩
      cases h1
    · rintro ⟨k2, hk⟩; cases hk

/-- The ActiveTransactions prefix selects exactly the
ActiveTransactions keys among encoded keys. -/
theorem prefix_active_iff (m : MvccKey) :
    [1] <+: m.encode ↔ ∃ v, m = MvccKey.activeTransactions v := by
  cases m with
  | nextVersion =>
    constructor
    · intro h
      rcases List.cons_prefix_cons.mp h with ⟨h1, _⟩
      cases h1
    · rintro ⟨v, hv⟩; cases hv
  | activeTransactions v =>
    constructor
    · intro _; exact ⟨v, rfl⟩
    · intro _
      exact List.cons_prefix_cons.mpr ⟨rfl, List.nil_prefix⟩
  | write v k =>
    constructor
    · intro h
      rcases List.cons_prefix_cons.mp h with ⟨h1, _⟩
      cases h1
    · rintro ⟨v2, hv⟩; cases hv
  | version k v =>
    constructor
    · intro h
      rcases List.cons_prefix_cons.mp h with ⟨h1, _⟩
      cases h1
    · rintro ⟨v2, hv⟩; cases hv

theorem storeLookup_foldl_storeDelete {α : Type} :
    ∀ (ks : List Bytes) (s : List (Bytes × α)) (kk : Bytes),
    storeLookup (ks.foldl storeDelete s) kk =
      if kk ∈ ks then none else storeLookup s kk := by
  intro ks
  induction ks with
  | nil => intro s kk; simp
  | cons k ks ih =>
    intro s kk
    simp only [List.foldl_cons]
    rw [ih (storeDelete s k) kk]
    by_cases hmem : kk ∈ ks
    · simp [hmem]
    · rw [if_neg hmem, storeLookup_storeDelete]
      by_cases hk : kk = k
      · simp [hk]
      · simp [hk, hmem]

theorem foldl_storeDelete_sorted {α : Type} :
    ∀ (ks : List Bytes) {s : List (Bytes × α)}, StoreSorted s →
      StoreSorted (ks.foldl storeDelete s) := by
  intro ks
  induction ks with
  | nil => intro s hs; exact hs
  | cons k ks ih =>
    intro s hs
    simp only [List.foldl_cons]
    exact ih (storeDelete_sorted hs k)

/-- scan_active_transactions: decode every entry found under the
ActiveTransactions prefix; any other key shape is an internal error. -/
def scanActiveLoop : List (Bytes × Bytes) → Except DbError (List Nat)
  | [] => .ok []
  | (ek, _) :: rest =>
    match deserializeMvccKey ek with
    | some (.activeTransactions v) => (scanActiveLoop rest).map (fun l => v :: l)
    | _ => .error .internal

def scanActiveTransactions (s : Store) : Except DbError (List Nat) :=
  scanActiveLoop (prefixScan s MvccKeyPrefix.activeTransactions.encode)

/-- bincode deserialization of a u64 (read 8 little-endian bytes). -/
def leValOf8 (bs : Bytes) : Option Nat :=
  if 8 ≤ bs.length then some (leVal (bs.take 8)) else none

/-- Reading the NextVersion counter: a stored value is decoded as a
bincode u64, a missing counter means this is the first transaction. -/
def readNextVersion (s : Store) : Except DbError Nat :=
  match storeLookup s MvccKey.nextVersion.encode with
  | some bs =>
    match leValOf8 bs with
    | some n => Except.ok n
    | none => Except.error DbError.internal
  | none => Except.ok 1

/-- MvccTransaction::begin: read NextVersion (default 1), bump the
counter, snapshot the active set (which does not yet contain this
transaction), then register this transaction as active. -/
def mvccBegin (s : Store) : Except DbError (TxState × Store) :=
  match readNextVersion s with
  | .error e => .error e
  | .ok next =>
    match scanActiveTransactions (storeSet s MvccKey.nextVersion.encode (le8 (next + 1))) with
    | .error e => .error e
    | .ok active =>
      .ok (⟨next, active⟩,
        storeSet (storeSet s MvccKey.nextVersion.encode (le8 (next + 1)))
          (MvccKey.activeTransactions next).encode [])

/-- A transaction performing a sequence of set / delete operations (a
None value is a delete): each operation runs through update, and a
failed operation leaves the store untouched. -/
def applyOps (st : TxState) : List (Bytes × Option Bytes) → Store → Store
  | [], s => s
  | op :: rest, s =>
    match mvccUpdate s st op.1 op.2 with
    | .ok s2 => applyOps st rest s2
    | .error _ => applyOps st rest s

/-- Rollback key collection: for every Write(version, raw) entry found,
queue the corresponding Version(raw, version) key and the Write key
itself for deletion. -/
def rollbackKeys (version : Nat) : List (Bytes × Bytes) → Except DbError (List Bytes)
  | [] => .ok []
  | (ek, _) :: rest =>
    match deserializeMvccKey ek with
    | some (.write _ raw) =>
      (rollbackKeys version rest).map
        (fun l => (MvccKey.version raw version).encode :: ek :: l)
    | _ => .error .internal

/-- MvccTransaction::rollback: delete every queued key, then deregister
the transaction from the active list. -/
def mvccRollback (s : Store) (st : TxState) : Except DbError Store :=
  match rollbackKeys st.version
      (prefixScan s (MvccKeyPrefix.write st.version).encode) with
  | .error e => .error e
  | .ok keys =>
    .ok (storeDelete (keys.foldl storeDelete s)
      (MvccKey.activeTransactions st.version).encode)

theorem mvccUpdate_ok_eq {s : Store} {st : TxState} {key : Bytes} {val : Option Bytes}
    {s2 : Store} (h : mvccUpdate s st key val = .ok s2) :
    s2 = storeSet (storeSet s (MvccKey.write st.version key).encode [])
      ((MvccKey.version key st.version).encode) (binOpt val) := by
  unfold mvccUpdate at h
  cases hc : mvccUpdateCheck s st key with
  | error e => rw [hc] at h; cases h
  | ok u =>
    rw [hc] at h
    cases u
    exact (Except.ok.inj h).symm

/-- Write keys round-trip for any raw byte list (only the version needs
to fit in a u64). -/
theorem deserialize_encode_write (v : Nat) (k : Bytes) (hv : v < 2 ^ 64) :
    deserializeMvccKey (MvccKey.write v k).encode = some (.write v k) := by
  have h1 := takeU64_be8 v hv (serBytes k)
  have h2 := nextBytes_escape k []
  simp only [serBytes, List.append_assoc] at h1 h2 ⊢
  simp [MvccKey.encode, deserializeMvccKey, h1, h2, serBytes]

theorem deserialize_encode_version (k : Bytes) (v : Nat) (hv : v < 2 ^ 64) :
    deserializeMvccKey (MvccKey.version k v).encode = some (.version k v) := by
  have h2 := nextBytes_escape k (be8 v)
  have h1 := takeU64_be8 v hv []
  rw [List.append_nil] at h1
  simp only [serBytes, List.append_assoc] at h2 ⊢
  simp [MvccKey.encode, deserializeMvccKey, h1, h2, serBytes]

theorem write_encode_inj2 {v v2 : Nat} {k k2 : Bytes} (hv : v < 2 ^ 64) (hv2 : v2 < 2 ^ 64)
    (h : (MvccKey.write v k).encode = (MvccKey.write v2 k2).encode) : v = v2 ∧ k = k2 := by
  have d1 := deserialize_encode_write v k hv
  have d2 := deserialize_encode_write v2 k2 hv2
  rw [h, d2] at d1
  have := Option.some.inj d1
  injection this with h1 h2
  exact ⟨h1.symm, h2.symm⟩

theorem version_encode_inj2 {v v2 : Nat} {k k2 : Bytes} (hv : v < 2 ^ 64) (hv2 : v2 < 2 ^ 64)
    (h : (MvccKey.version k v).encode = (MvccKey.version k2 v2).encode) : v = v2 ∧ k = k2 := by
  have d1 := deserialize_encode_version k v hv
  have d2 := deserialize_encode_version k2 v2 hv2
  rw [h, d2] at d1
  have := Option.some.inj d1
  injection this with h1 h2
  exact ⟨h2.symm, h1.symm⟩

theorem write_encode_ne_version (v : Nat) (k k2 : Bytes) (v2 : Nat) :
    (MvccKey.write v k).encode ≠ (MvccKey.version k2 v2).encode := by
  intro h
  simp [MvccKey.encode] at h

theorem nextVersion_encode_ne_write (v : Nat) (k : Bytes) :
    MvccKey.nextVersion.encode ≠ (MvccKey.write v k).encode := by
  intro h
  simp [MvccKey.encode] at h

theorem nextVersion_encode_ne_version (k : Bytes) (v : Nat) :
    MvccKey.nextVersion.encode ≠ (MvccKey.version k v).encode := by
  intro h
  simp [MvccKey.encode] at h

theorem nextVersion_encode_ne_active (v : Nat) :
    MvccKey.nextVersion.encode ≠ (MvccKey.activeTransactions v).encode := by
  intro h
  simp [MvccKey.encode] at h

theorem active_encode_ne_write (v v2 : Nat) (k : Bytes) :
    (MvccKey.activeTransactions v).encode ≠ (MvccKey.write v2 k).encode := by
  intro h
  simp [MvccKey.encode] at h

theorem active_encode_ne_version (v : Nat) (k : Bytes) (v2 : Nat) :
    (MvccKey.activeTransactions v).encode ≠ (MvccKey.version k v2).encode := by
  intro h
  simp [MvccKey.encode] at h

/-- Invariant on the store while a transaction at version v, begun on
top of base store sb, has successfully written the raw keys in W: the
store stays sorted with well-formed keys, the Write manifest and the
Version entry at v are present for every key of W, and every other key
reads exactly as in sb. -/
def TxWriteInv (sb : Store) (v : Nat) (cur : Store) (W : List Bytes) : Prop :=
  StoreSorted cur ∧
  (∀ e ∈ cur, ∃ m : MvccKey, m.Bounded ∧ e.1 = m.encode) ∧
  (∀ k ∈ W, (∀ b ∈ k, b < 256) ∧
    storeLookup cur ((MvccKey.write v k).encode) = some [] ∧
    ∃ w, storeLookup cur ((MvccKey.version k v).encode) = some (binOpt w)) ∧
  (∀ k : Bytes, k ∉ W →
    storeLookup cur ((MvccKey.write v k).encode)
      = storeLookup sb ((MvccKey.write v k).encode) ∧
    storeLookup cur ((MvccKey.version k v).encode)
      = storeLookup sb ((MvccKey.version k v).encode)) ∧
  (∀ kk : Bytes,
    (∀ k : Bytes, kk ≠ (MvccKey.write v k).encode ∧ kk ≠ (MvccKey.version k v).encode) →
    storeLookup cur kk = storeLookup sb kk)

theorem txWriteInv_set (sb cur : Store) (v : Nat) (key : Bytes) (val : Option Bytes)
    (W : List Bytes) (hv : v < 2 ^ 64) (hkey : ∀ b ∈ key, b < 256)
    (hinv : TxWriteInv sb v cur W) :
    TxWriteInv sb v
      (storeSet (storeSet cur (MvccKey.write v key).encode [])
        ((MvccKey.version key v).encode) (binOpt val)) (key :: W) := by
  obtain ⟨hsort, hkeys, hin, hout, hother⟩ := hinv
  have hwb : (MvccKey.write v key).Bounded := ⟨hv, hkey⟩
  have hvb : (MvccKey.version key v).Bounded := ⟨hv, hkey⟩
  have hsort1 : StoreSorted (storeSet cur (MvccKey.write v key).encode []) :=
    storeSet_sorted hsort _ _
  have hlook : ∀ kk : Bytes,
      storeLookup (storeSet (storeSet cur (MvccKey.write v key).encode [])
        ((MvccKey.version key v).encode) (binOpt val)) kk =
      if kk = (MvccKey.version key v).encode then some (binOpt val)
      else if kk = (MvccKey.write v key).encode then some []
      else storeLookup cur kk := by
    intro kk
    rw [storeLookup_storeSet hsort1, storeLookup_storeSet hsort]
  refine ⟨storeSet_sorted hsort1 _ _, ?_, ?_, ?_, ?_⟩
  · intro e he
    rcases mem_storeSet _ _ _ e he with he2 | he2
    · rcases mem_storeSet _ _ _ e he2 with he3 | he3
      · exact hkeys e he3
      · exact ⟨MvccKey.write v key, hwb, by rw [he3]⟩
    · exact ⟨MvccKey.version key v, hvb, by rw [he2]⟩
  · intro k hk
    by_cases hke : k = key
    · subst hke
      refine ⟨hkey, ?_, ⟨val, ?_⟩⟩
      · rw [hlook, if_neg (write_encode_ne_version _ _ _ _), if_pos rfl]
      · rw [hlook, if_pos rfl]
    · have hkW : k ∈ W := by
        rcases List.mem_cons.mp hk with h | h
        · exact absurd h hke
        · exact h
      obtain ⟨hkb, hw, ⟨w, hvv⟩⟩ := hin k hkW
      refine ⟨hkb, ?_, ⟨w, ?_⟩⟩
      · rw [hlook, if_neg (write_encode_ne_version _ _ _ _),
          if_neg (fun h => hke (write_encode_inj2 hv hv h).2)]
        exact hw
      · rw [hlook, if_neg (fun h => hke (version_encode_inj2 hv hv h).2),
          if_neg (fun h => write_encode_ne_version v key k v h.symm)]
        exact hvv
  · intro k hk
    have hke : k ≠ key := fun h => hk (h ▸ List.mem_cons_self _ _)
    have hkW : k ∉ W := fun h => hk (List.mem_cons_of_mem _ h)
    obtain ⟨hw, hvv⟩ := hout k hkW
    constructor
    · rw [hlook, if_neg (write_encode_ne_version _ _ _ _),
        if_neg (fun h => hke (write_encode_inj2 hv hv h).2)]
      exact hw
    · rw [hlook, if_neg (fun h => hke (version_encode_inj2 hv hv h).2),
        if_neg (fun h => write_encode_ne_version v key k v h.symm)]
      exact hvv
  · intro kk hkk
    rw [hlook, if_neg (hkk key).2, if_neg (hkk key).1]
    exact hother kk hkk

theorem txWriteInv_applyOps (sb : Store) (st : TxState) (hv : st.version < 2 ^ 64) :
    ∀ ops : List (Bytes × Option Bytes), (∀ op ∈ ops, ∀ b ∈ op.1, b < 256) →
    ∀ cur W, TxWriteInv sb st.version cur W →
    ∃ W2 : List Bytes, TxWriteInv sb st.version (applyOps st ops cur) W2 ∧
      ∀ k ∈ W2, k ∈ W ∨ ∃ op ∈ ops, k = op.1 := by
  intro ops
  induction ops with
  | nil =>
    intro _ cur W hinv
    exact ⟨W, hinv, fun k hk => Or.inl hk⟩
  | cons op rest ih =>
    intro hops cur W hinv
    have hopk : ∀ b ∈ op.1, b < 256 := hops op (List.mem_cons_self _ _)
    have hrest : ∀ o ∈ rest, ∀ b ∈ o.1, b < 256 :=
      fun o ho => hops o (List.mem_cons_of_mem _ ho)
    simp only [applyOps]
    cases hu : mvccUpdate cur st op.1 op.2 with
    | error e =>
      obtain ⟨W2, h1, h2⟩ := ih hrest cur W hinv
      refine ⟨W2, h1, fun k hk => ?_⟩
      rcases h2 k hk with h | ⟨o, ho, hko⟩
      · exact Or.inl h
      · exact Or.inr ⟨o, List.mem_cons_of_mem _ ho, hko⟩
    | ok s2 =>
      have hs2 := mvccUpdate_ok_eq hu
      subst hs2
      obtain ⟨W2, h1, h2⟩ := ih hrest _ (op.1 :: W)
        (txWriteInv_set sb cur st.version op.1 op.2 W hv hopk hinv)
      refine ⟨W2, h1, fun k hk => ?_⟩
      rcases h2 k hk with h | ⟨o, ho, hko⟩
      · rcases List.mem_cons.mp h with h3 | h3
        · exact Or.inr ⟨op, List.mem_cons_self _ _, h3⟩
        · exact Or.inl h3
      · exact Or.inr ⟨o, List.mem_cons_of_mem _ ho, hko⟩

theorem scanActiveLoop_ok :
    ∀ l : List (Bytes × Bytes),
    (∀ e ∈ l, ∃ v, deserializeMvccKey e.1 = some (.activeTransactions v)) →
    ∃ a, scanActiveLoop l = .ok a := by
  intro l
  induction l with
  | nil => intro _; exact ⟨[], rfl⟩
  | cons e rest ih =>
    intro h
    obtain ⟨ek, ev⟩ := e
    obtain ⟨v, hv⟩ := h (ek, ev) (List.mem_cons_self _ _)
    have hv2 : deserializeMvccKey ek = some (MvccKey.activeTransactions v) := hv
    obtain ⟨a, ha⟩ := ih (fun e2 he2 => h e2 (List.mem_cons_of_mem _ he2))
    exact ⟨v :: a, by simp [scanActiveLoop, hv2, ha, Except.map]⟩

theorem scanActive_ok (s : Store)
    (hkeys : ∀ e ∈ s, ∃ m : MvccKey, m.Bounded ∧ e.1 = m.encode) :
    ∃ a, scanActiveTransactions s = .ok a := by
  apply scanActiveLoop_ok
  intro e he
  have he2 : e ∈ storeScan s (ScanBound.incl [1]) (ScanBound.excl [2]) := he
  have hes : e ∈ s := ((mem_storeScan _ _ _ _).mp he2).1
  obtain ⟨m, hmb, hme⟩ := hkeys e hes
  have hk : ∀ b ∈ e.1, b < 256 := by rw [hme]; exact encode_bytes_lt m hmb
  have hpre : MvccKeyPrefix.activeTransactions.encode <+: e.1 :=
    ((mem_prefixScan s _ (by intro b hb; simp [MvccKeyPrefix.encode] at hb; omega)
      e hk).mp he).2
  rw [hme] at hpre
  obtain ⟨v, hv⟩ := (prefix_active_iff m).mp hpre
  subst hv
  exact ⟨v, by rw [hme]; exact deserialize_encode_eq _ hmb⟩

theorem rollbackKeys_spec (v : Nat) :
    ∀ l : List (Bytes × Bytes),
    (∀ e ∈ l, ∃ k, deserializeMvccKey e.1 = some (.write v k)) →
    ∃ keys, rollbackKeys v l = .ok keys ∧
      ∀ kk, kk ∈ keys ↔ ∃ e ∈ l, ∃ k, deserializeMvccKey e.1 = some (.write v k) ∧
        (kk = (MvccKey.version k v).encode ∨ kk = e.1) := by
  intro l
  induction l with
  | nil =>
    intro _
    exact ⟨[], rfl, by simp⟩
  | cons e rest ih =>
    intro h
    obtain ⟨ek, ev⟩ := e
    obtain ⟨k0, hk0⟩ := h (ek, ev) (List.mem_cons_self _ _)
    have hk0e : deserializeMvccKey ek = some (MvccKey.write v k0) := hk0
    obtain ⟨keys, hkeys, hmem⟩ := ih (fun e2 he2 => h e2 (List.mem_cons_of_mem _ he2))
    refine ⟨(MvccKey.version k0 v).encode :: ek :: keys, ?_, ?_⟩
    · simp [rollbackKeys, hk0e, hkeys, Except.map]
    · intro kk
      constructor
      · intro hkk
        rcases List.mem_cons.mp hkk with h | hkk2
        · exact ⟨(ek, ev), List.mem_cons_self _ _, k0, hk0e, Or.inl h⟩
        · rcases List.mem_cons.mp hkk2 with h | hkk3
          · exact ⟨(ek, ev), List.mem_cons_self _ _, k0, hk0e, Or.inr h⟩
          · obtain ⟨e2, he2, k2, hd2, hor⟩ := (hmem kk).mp hkk3
            exact ⟨e2, List.mem_cons_of_mem _ he2, k2, hd2, hor⟩
      · rintro ⟨e2, he2, k2, hd2, hor⟩
        rcases List.mem_cons.mp he2 with rfl | he3
        · have heq : MvccKey.write v k2 = MvccKey.write v k0 :=
            Option.some.inj (hd2.symm.trans hk0e)
          injection heq with hv2 hkk2
          subst hkk2
          rcases hor with rfl | rfl
          · exact List.mem_cons_self _ _
          · exact List.mem_cons_of_mem _ (List.mem_cons_self _ _)
        · exact List.mem_cons_of_mem _ (List.mem_cons_of_mem _
            ((hmem kk).mpr ⟨e2, he3, k2, hd2, hor⟩))

theorem leValOf8_le8 (v : Nat) (hv : v < 2 ^ 64) : leValOf8 (le8 v) = some v := by
  unfold leValOf8
  rw [if_pos (by rw [le8_length])]
  rw [show (8 : Nat) = (le8 v).length from (le8_length v).symm, List.take_length,
    leVal_le8 v hv]

theorem mvccBegin_eq {s : Store} {n : Nat} {active : List Nat}
    (h1 : readNextVersion s = .ok n)
    (h2 : scanActiveTransactions (storeSet s MvccKey.nextVersion.encode (le8 (n + 1)))
      = .ok active) :
    mvccBegin s = .ok (⟨n, active⟩,
      storeSet (storeSet s MvccKey.nextVersion.encode (le8 (n + 1)))
        (MvccKey.activeTransactions n).encode []) := by
  simp only [mvccBegin, h1, h2]

theorem mvccRollback_eq_of_keys (s : Store) (st : TxState) {keys : List Bytes}
    (h : rollbackKeys st.version (prefixScan s (MvccKeyPrefix.write st.version).encode)
      = .ok keys) :
    mvccRollback s st = .ok (storeDelete (keys.foldl storeDelete s)
      (MvccKey.activeTransactions st.version).encode) := by
  simp only [mvccRollback, h]

/-- C3: a transaction that begins at a fresh version n over a
well-formed store, performs any sequence of set / delete operations and
then rolls back, leaves the store equal to the original store with
only the NextVersion counter bumped; in particular no Write(n, _),
Version(_, n) or ActiveTransactions(n) entry remains. -/
theorem claimC3_rollback (s0 : Store) (ops : List (Bytes × Option Bytes)) (n : Nat)
    (hwf : WfStore s0) (hn : n + 1 < 2 ^ 64)
    (hnv : storeLookup s0 MvccKey.nextVersion.encode = some (le8 n) ∨
      (storeLookup s0 MvccKey.nextVersion.encode = none ∧ n = 1))
    (hops : ∀ op ∈ ops, ∀ b ∈ op.1, b < 256)
    (hfw : ∀ k : Bytes, storeLookup s0 (MvccKey.write n k).encode = none)
    (hfv : ∀ k : Bytes, storeLookup s0 (MvccKey.version k n).encode = none)
    (hfa : storeLookup s0 (MvccKey.activeTransactions n).encode = none) :
    ∃ st s1, mvccBegin s0 = .ok (st, s1) ∧ st.version = n ∧
      ∃ s3, mvccRollback (applyOps st ops s1) st = .ok s3 ∧
        s3 = storeSet s0 MvccKey.nextVersion.encode (le8 (n + 1)) ∧
        (∀ k : Bytes, storeLookup s3 (MvccKey.write n k).encode = none) ∧
        (∀ k : Bytes, storeLookup s3 (MvccKey.version k n).encode = none) ∧
        storeLookup s3 (MvccKey.activeTransactions n).encode = none := by
  have hs0s : StoreSorted s0 := hwf.sorted
  have hs1s : StoreSorted (storeSet s0 MvccKey.nextVersion.encode (le8 (n + 1))) :=
    storeSet_sorted hs0s _ _
  have hkeys1 : ∀ e ∈ storeSet s0 MvccKey.nextVersion.encode (le8 (n + 1)),
      ∃ m : MvccKey, m.Bounded ∧ e.1 = m.encode := by
    intro e he
    rcases mem_storeSet _ _ _ e he with he2 | he2
    · exact hwf.keys e he2
    · exact ⟨MvccKey.nextVersion, trivial, by rw [he2]⟩
  obtain ⟨active, hactive⟩ := scanActive_ok _ hkeys1
  have hnext : readNextVersion s0 = Except.ok n := by
    rcases hnv with h | ⟨h, rfl⟩
    · simp only [readNextVersion, h, leValOf8_le8 n (by omega)]
    · simp only [readNextVersion, h]
  have hbegin := mvccBegin_eq hnext hactive
  refine ⟨⟨n, active⟩, _, hbegin, rfl, ?_⟩
  have hs2s : StoreSorted (storeSet (storeSet s0 MvccKey.nextVersion.encode (le8 (n + 1)))
      (MvccKey.activeTransactions n).encode []) := storeSet_sorted hs1s _ _
  have hkeys2 : ∀ e ∈ storeSet (storeSet s0 MvccKey.nextVersion.encode (le8 (n + 1)))
      (MvccKey.activeTransactions n).encode [],
      ∃ m : MvccKey, m.Bounded ∧ e.1 = m.encode := by
    intro e he
    rcases mem_storeSet _ _ _ e he with he2 | he2
    · exact hkeys1 e he2
    · refine ⟨MvccKey.activeTransactions n, ?_, by rw [he2]⟩
      show n < 2 ^ 64
      omega
  have hbase : TxWriteInv (storeSet (storeSet s0 MvccKey.nextVersion.encode (le8 (n + 1)))
      (MvccKey.activeTransactions n).encode []) n
      (storeSet (storeSet s0 MvccKey.nextVersion.encode (le8 (n + 1)))
        (MvccKey.activeTransactions n).encode []) [] := by
    refine ⟨hs2s, hkeys2, ?_, ?_, ?_⟩
    · intro k hk
      simp at hk
    · intro k _
      exact ⟨rfl, rfl⟩
    · intro kk _
      rfl
  obtain ⟨W, hinv0, hWsrc⟩ := txWriteInv_applyOps
    (storeSet (storeSet s0 MvccKey.nextVersion.encode (le8 (n + 1)))
      (MvccKey.activeTransactions n).encode [])
    ⟨n, active⟩ ((by omega : n < 2 ^ 64)) ops hops _ [] hbase
  have hinv : TxWriteInv (storeSet (storeSet s0 MvccKey.nextVersion.encode (le8 (n + 1)))
      (MvccKey.activeTransactions n).encode []) n
      (applyOps ⟨n, active⟩ ops
        (storeSet (storeSet s0 MvccKey.nextVersion.encode (le8 (n + 1)))
          (MvccKey.activeTransactions n).encode [])) W := hinv0
  obtain ⟨hcs, hck, hcin, hcout, hcoth⟩ := hinv
  have hP : ∀ e ∈ prefixScan (applyOps (⟨n, active⟩ : TxState) ops
      (storeSet (storeSet s0 MvccKey.nextVersion.encode (le8 (n + 1)))
        (MvccKey.activeTransactions n).encode []))
      (MvccKeyPrefix.write n).encode,
      ∃ k, (∀ b ∈ k, b < 256) ∧ e.1 = (MvccKey.write n k).encode := by
    intro e he
    have hes : e ∈ applyOps (⟨n, active⟩ : TxState) ops
        (storeSet (storeSet s0 MvccKey.nextVersion.encode (le8 (n + 1)))
          (MvccKey.activeTransactions n).encode []) := by
      unfold prefixScan at he
      rcases hpe : prefixScanEnd (MvccKeyPrefix.write n).encode with _ | np <;>
        rw [hpe] at he
      · exact ((mem_storeScan _ _ _ _).mp he).1
      · exact ((mem_storeScan _ _ _ _).mp he).1
    obtain ⟨m, hmb, hme⟩ := hck e hes
    have hkb : ∀ b ∈ e.1, b < 256 := by rw [hme]; exact encode_bytes_lt m hmb
    have hpb : ∀ b ∈ (MvccKeyPrefix.write n).encode, b < 256 := by
      intro b hb
      simp only [MvccKeyPrefix.encode, be8, List.mem_cons] at hb
      rcases hb with rfl | hb
      · omega
      · exact beBytes_mem_lt 8 n b hb
    have hpre := ((mem_prefixScan _ _ hpb e hkb).mp he).2
    rw [hme] at hpre
    obtain ⟨k, hkm⟩ := (prefix_write_iff n m hmb (by omega)).mp hpre
    subst hkm
    exact ⟨k, hmb.2, hme⟩
  have hPd : ∀ e ∈ prefixScan (applyOps (⟨n, active⟩ : TxState) ops
      (storeSet (storeSet s0 MvccKey.nextVersion.encode (le8 (n + 1)))
        (MvccKey.activeTransactions n).encode []))
      (MvccKeyPrefix.write n).encode,
      ∃ k, deserializeMvccKey e.1 = some (MvccKey.write n k) := by
    intro e he
    obtain ⟨k, _, hme⟩ := hP e he
    exact ⟨k, by rw [hme]; exact deserialize_encode_write n k (by omega)⟩
  obtain ⟨keys, hkok, hkmem⟩ := rollbackKeys_spec n _ hPd
  have hpb : ∀ b ∈ (MvccKeyPrefix.write n).encode, b < 256 := by
    intro b hb
    simp only [MvccKeyPrefix.encode, be8, List.mem_cons] at hb
    rcases hb with rfl | hb
    · omega
    · exact beBytes_mem_lt 8 n b hb
  have heq : storeDelete (keys.foldl storeDelete (applyOps (⟨n, active⟩ : TxState) ops
      (storeSet (storeSet s0 MvccKey.nextVersion.encode (le8 (n + 1)))
        (MvccKey.activeTransactions n).encode [])))
      (MvccKey.activeTransactions n).encode
      = storeSet s0 MvccKey.nextVersion.encode (le8 (n + 1)) := by
    apply store_ext (storeDelete_sorted (foldl_storeDelete_sorted keys hcs) _) hs1s
    intro kk
    rw [storeLookup_storeDelete, storeLookup_foldl_storeDelete,
      storeLookup_storeSet hs0s]
    by_cases hak : kk = (MvccKey.activeTransactions n).encode
    · rw [if_pos hak, hak, if_neg (fun h => nextVersion_encode_ne_active n h.symm), hfa]
    · rw [if_neg hak]
      by_cases hks : kk ∈ keys
      · rw [if_pos hks]
        obtain ⟨e, heP, k, hd, hor⟩ := (hkmem kk).mp hks
        rcases hor with h | h
        · rw [h, if_neg (fun hx => nextVersion_encode_ne_version k n hx.symm)]
          exact (hfv k).symm
        · obtain ⟨k2, _, hme⟩ := hP e heP
          rw [h, hme, if_neg (fun hx => nextVersion_encode_ne_write n k2 hx.symm)]
          exact (hfw k2).symm
      · rw [if_neg hks]
        by_cases h1 : ∃ k : Bytes, kk = (MvccKey.write n k).encode
        · obtain ⟨k, rfl⟩ := h1
          by_cases hkW : k ∈ W
          · exfalso
            obtain ⟨hkb, hwl, _⟩ := hcin k hkW
            have hmem2 := mem_of_storeLookup_eq_some hwl
            have hkk256 : ∀ b ∈ (MvccKey.write n k).encode, b < 256 :=
              encode_bytes_lt _ ⟨by omega, hkb⟩
            have hpre : (MvccKeyPrefix.write n).encode <+: (MvccKey.write n k).encode := by
              show (2 :: be8 n) <+: 2 :: (be8 n ++ serBytes k)
              exact List.cons_prefix_cons.mpr ⟨rfl, ⟨serBytes k, rfl⟩⟩
            have heP := (mem_prefixScan _ _ hpb _ hkk256).mpr ⟨hmem2, hpre⟩
            refine hks ((hkmem _).mpr ⟨_, heP, k, ?_, Or.inr rfl⟩)
            show deserializeMvccKey (MvccKey.write n k).encode = _
            exact deserialize_encode_write n k (by omega)
          · rw [(hcout k hkW).1, storeLookup_storeSet hs1s, if_neg hak,
              storeLookup_storeSet hs0s]
        · by_cases h2 : ∃ k : Bytes, kk = (MvccKey.version k n).encode
          · obtain ⟨k, rfl⟩ := h2
            by_cases hkW : k ∈ W
            · exfalso
              obtain ⟨hkb, hwl, _⟩ := hcin k hkW
              have hmem2 := mem_of_storeLookup_eq_some hwl
              have hkk256 : ∀ b ∈ (MvccKey.write n k).encode, b < 256 :=
                encode_bytes_lt _ ⟨by omega, hkb⟩
              have hpre : (MvccKeyPrefix.write n).encode <+: (MvccKey.write n k).encode := by
                show (2 :: be8 n) <+: 2 :: (be8 n ++ serBytes k)
                exact List.cons_prefix_cons.mpr ⟨rfl, ⟨serBytes k, rfl⟩⟩
              have heP := (mem_prefixScan _ _ hpb _ hkk256).mpr ⟨hmem2, hpre⟩
              refine hks ((hkmem _).mpr ⟨_, heP, k, ?_, Or.inl rfl⟩)
              show deserializeMvccKey (MvccKey.write n k).encode = _
              exact deserialize_encode_write n k (by omega)
            · rw [(hcout k hkW).2, storeLookup_storeSet hs1s, if_neg hak,
                storeLookup_storeSet hs0s]
          · rw [hcoth kk (fun k => ⟨fun hx => h1 ⟨k, hx⟩, fun hx => h2 ⟨k, hx⟩⟩),
              storeLookup_storeSet hs1s, if_neg hak, storeLookup_storeSet hs0s]
  refine ⟨storeSet s0 MvccKey.nextVersion.encode (le8 (n + 1)), ?_, rfl, ?_, ?_, ?_⟩
  · have hr := mvccRollback_eq_of_keys _ ⟨n, active⟩ hkok
    rw [hr]
    exact congrArg Except.ok heq
  · intro k
    rw [storeLookup_storeSet hs0s,
      if_neg (fun h => nextVersion_encode_ne_write n k h.symm)]
    exact hfw k
  · intro k
    rw [storeLookup_storeSet hs0s,
      if_neg (fun h => nextVersion_encode_ne_version k n h.symm)]
    exact hfv k
  · rw [storeLookup_storeSet hs0s,
      if_neg (fun h => nextVersion_encode_ne_active n h.symm)]
    exact hfa

theorem claimC3_rollback_witness :
    ∃ st s1, mvccBegin [] = .ok (st, s1) ∧ st.version = 1 ∧
      ∃ s3, mvccRollback (applyOps st [([7], some [9])] s1) st = .ok s3 ∧
        s3 = storeSet [] MvccKey.nextVersion.encode (le8 2) ∧
        (∀ k : Bytes, storeLookup s3 (MvccKey.write 1 k).encode = none) ∧
        (∀ k : Bytes, storeLookup s3 (MvccKey.version k 1).encode = none) ∧
        storeLookup s3 (MvccKey.activeTransactions 1).encode = none :=
  claimC3_rollback [] [([7], some [9])] 1
    ⟨List.Pairwise.nil, fun e he => absurd he (List.not_mem_nil e),
      fun e he => absurd he (List.not_mem_nil e)⟩
    (by norm_num)
    (Or.inr ⟨rfl, rfl⟩)
    (by decide)
    (fun k => rfl) (fun k => rfl) rfl

/-
## DiskEngine (src/storage/disk.rs)

The log file is a flat byte sequence of records
[key_len as u32 BE | value_len as i32 BE, -1 for a tombstone | key | value];
the in-memory KeyDir maps each live key to (value offset, value length).
-/

def be4 (v : Nat) : Bytes := beBytes 4 v

/-- The value-length header field: the value length as a big-endian
i32, -1 (four 255 bytes) for a deletion tombstone. -/
def valLenBytes : Option Bytes → Bytes
  | none => [255, 255, 255, 255]
  | some v => be4 v.length

/-- One log record as written by Log::write_log. -/
def logRecord (key : Bytes) (value : Option Bytes) : Bytes :=
  be4 key.length ++ valLenBytes value ++ key ++ value.getD []

structure DiskEngine where
  file : Bytes
  key_dir : List (Bytes × Nat × Nat)

/-- Log::read_value: read len bytes at offset (read_exact fails when
the range lies outside the file). -/
def readValue (file : Bytes) (offset len : Nat) : Option Bytes :=
  if offset + len ≤ file.length then some ((file.drop offset).take len) else none

/-- DiskEngine::set: append a record, then point the index at the value
part of the record (offset + size - value_len). -/
def diskSet (e : DiskEngine) (key value : Bytes) : DiskEngine :=
  { file := e.file ++ logRecord key (some value),
    key_dir := storeSet e.key_dir key
      (e.file.length + (8 + key.length + value.length) - value.length, value.length) }

/-- DiskEngine::delete: append a tombstone record and drop the index
entry. -/
def diskDelete (e : DiskEngine) (key : Bytes) : DiskEngine :=
  { file := e.file ++ logRecord key none,
    key_dir := storeDelete e.key_dir key }

/-- The full scan: walk the index in key order and read every value
from the log. -/
def diskScanLoop (file : Bytes) : List (Bytes × Nat × Nat) →
    Except DbError (List (Bytes × Bytes))
  | [] => .ok []
  | (k, o, l) :: rest =>
    match readValue file o l with
    | some v => (diskScanLoop file rest).map (fun t => (k, v) :: t)
    | none => .error .internal

def diskScanAll (e : DiskEngine) : Except DbError (List (Bytes × Bytes)) :=
  diskScanLoop e.file e.key_dir

/-- DiskEngine::compact, the rewrite loop: for every index entry in key
order read the live value from the old log, append it to the new log
and index the new copy. -/
def compactLoop (file : Bytes) : List (Bytes × Nat × Nat) → Bytes →
    List (Bytes × Nat × Nat) → Except DbError (Bytes × List (Bytes × Nat × Nat))
  | [], nf, nd => .ok (nf, nd)
  | (k, o, l) :: rest, nf, nd =>
    match readValue file o l with
    | some v =>
      compactLoop file rest (nf ++ logRecord k (some v))
        (storeSet nd k (nf.length + (8 + k.length + v.length) - l, l))
    | none => .error .internal

def diskCompact (e : DiskEngine) : Except DbError DiskEngine :=
  match compactLoop e.file e.key_dir [] [] with
  | .ok (nf, nd) => .ok ⟨nf, nd⟩
  | .error er => .error er

/-- States reachable from an empty database by set / delete operations
(key and value lengths within the u32 / i32 casts of the header). -/
inductive DiskReachable : DiskEngine → Prop where
  | init : DiskReachable ⟨[], []⟩
  | set (e : DiskEngine) (key value : Bytes) (hk : key.length < 2 ^ 31)
      (hv : value.length < 2 ^ 31) :
      DiskReachable e → DiskReachable (diskSet e key value)
  | del (e : DiskEngine) (key : Bytes) :
      DiskReachable e → DiskReachable (diskDelete e key)

/-- Log::build_key_dir's record decoder applied to a whole file: split
the byte sequence into its records (the fuel bounds the number of
records). -/
def parseLogAux : Nat → Bytes → Option (List (Bytes × Option Bytes))
  | 0, bs => if bs = [] then some [] else none
  | fuel + 1, bs =>
    if bs = [] then some []
    else if 8 ≤ bs.length then
      if (bs.drop 4).take 4 = [255, 255, 255, 255] then
        if beVal (bs.take 4) ≤ (bs.drop 8).length then
          (parseLogAux fuel ((bs.drop 8).drop (beVal (bs.take 4)))).map
            (fun t => ((bs.drop 8).take (beVal (bs.take 4)), none) :: t)
        else none
      else
        if beVal (bs.take 4) + beVal ((bs.drop 4).take 4) ≤ (bs.drop 8).length then
          (parseLogAux fuel
              (((bs.drop 8).drop (beVal (bs.take 4))).drop (beVal ((bs.drop 4).take 4)))).map
            (fun t => ((bs.drop 8).take (beVal (bs.take 4)),
              some (((bs.drop 8).drop (beVal (bs.take 4))).take
                (beVal ((bs.drop 4).take 4)))) :: t)
        else none
    else none

def parseLog (bs : Bytes) : Option (List (Bytes × Option Bytes)) :=
  parseLogAux bs.length bs

/-- The concatenated records that compaction writes for an index
suffix. -/
def recordsOf (file : Bytes) : List (Bytes × Nat × Nat) → Bytes
  | [] => []
  | (k, o, l) :: rest => logRecord k (some ((file.drop o).take l)) ++ recordsOf file rest

/-- Well-formedness of a disk engine: sorted index, every entry inside
the file, header length fields within the u32 / i32 casts. -/
structure WfDisk (e : DiskEngine) : Prop where
  sorted : StoreSorted e.key_dir
  bounds : ∀ ent ∈ e.key_dir, ent.2.1 + ent.2.2 ≤ e.file.length ∧
    ent.1.length < 2 ^ 31 ∧ ent.2.2 < 2 ^ 31

theorem valLenBytes_length (value : Option Bytes) : (valLenBytes value).length = 4 := by
  cases value with
  | none => rfl
  | some v => exact beBytes_length 4 _

theorem logRecord_length (key : Bytes) (value : Option Bytes) :
    (logRecord key value).length = 8 + key.length + (value.getD []).length := by
  simp only [logRecord, be4, List.length_append, beBytes_length, valLenBytes_length]

/-- Inserting a key above every key of a sorted store appends it. -/
theorem storeSet_append {α : Type} :
    ∀ (s : List (Bytes × α)) (k : Bytes) (v : α),
    (∀ e ∈ s, bytesCmp e.1 k = .lt) → storeSet s k v = s ++ [(k, v)] := by
  intro s
  induction s with
  | nil => intro k v _; rfl
  | cons e rest ih =>
    intro k v h
    obtain ⟨k2, v2⟩ := e
    have hlt : bytesCmp k2 k = .lt := h (k2, v2) (List.mem_cons_self _ _)
    have hgt : bytesCmp k k2 = .gt := by
      rw [← bytesCmp_swap k2 k, hlt]
      rfl
    simp only [storeSet, hgt]
    rw [ih k v (fun e2 he => h e2 (List.mem_cons_of_mem _ he))]
    rfl

/-- Strictly ascending keys are distinct. -/
theorem storeSorted_keys_nodup {α : Type} {s : List (Bytes × α)} (hs : StoreSorted s) :
    (s.map Prod.fst).Nodup := by
  refine List.Pairwise.map Prod.fst ?_ hs
  intro a b hab heq
  rw [heq] at hab
  exact absurd hab (bytesCmp_lt_irrefl _)

theorem diskScanLoop_ok (file : Bytes) :
    ∀ d : List (Bytes × Nat × Nat), (∀ ent ∈ d, ent.2.1 + ent.2.2 ≤ file.length) →
    diskScanLoop file d =
      .ok (d.map (fun ent => (ent.1, (file.drop ent.2.1).take ent.2.2))) := by
  intro d
  induction d with
  | nil => intro _; rfl
  | cons ent rest ih =>
    intro hb
    obtain ⟨k, o, l⟩ := ent
    have h1 : readValue file o l = some ((file.drop o).take l) := by
      unfold readValue
      rw [if_pos (hb (k, o, l) (List.mem_cons_self _ _))]
    simp [diskScanLoop, h1, ih (fun e2 he => hb e2 (List.mem_cons_of_mem _ he)), Except.map]

/-- Reading the value of a freshly written record, possibly followed by
further records, returns the written bytes. -/
theorem readValue_newRecord (nf k w ext : Bytes) (l : Nat) (hl : w.length = l) :
    readValue ((nf ++ logRecord k (some w)) ++ ext) (nf.length + 8 + k.length) l =
      some w := by
  have hpre : nf ++ logRecord k (some w) =
      (nf ++ (beBytes 4 k.length ++ beBytes 4 w.length ++ k)) ++ w := by
    simp [logRecord, valLenBytes, be4, List.append_assoc]
  have hplen : (nf ++ (beBytes 4 k.length ++ beBytes 4 w.length ++ k)).length =
      nf.length + 8 + k.length := by
    simp only [List.length_append, beBytes_length]
    omega
  have hlen : ((nf ++ logRecord k (some w)) ++ ext).length =
      nf.length + (8 + k.length + w.length) + ext.length := by
    simp only [List.length_append, logRecord_length, Option.getD_some]
  have hsl : ((nf ++ logRecord k (some w)) ++ ext).drop (nf.length + 8 + k.length) =
      w ++ ext := by
    rw [hpre, List.append_assoc, ← hplen, List.drop_left]
  unfold readValue
  rw [if_pos (by rw [hlen]; omega)]
  rw [hsl, ← hl, List.take_left]

theorem parseLogAux_nil (fuel : Nat) : parseLogAux fuel [] = some [] := by
  cases fuel <;> simp [parseLogAux]

/-- Parsing one well-formed non-tombstone record off the front of the
log. -/
theorem parseLogAux_record (fuel : Nat) (k v rest2 : Bytes)
    (t : List (Bytes × Option Bytes))
    (hk : k.length < 2 ^ 31) (hv : v.length < 2 ^ 31)
    (hrec : parseLogAux fuel rest2 = some t) :
    parseLogAux (fuel + 1) (logRecord k (some v) ++ rest2) = some ((k, some v) :: t) := by
  have hklt : k.length < 256 ^ 4 := lt_trans hk (by norm_num)
  have hvlt : v.length < 256 ^ 4 := lt_trans hv (by norm_num)
  have hgrp : logRecord k (some v) ++ rest2 =
      beBytes 4 k.length ++ (beBytes 4 v.length ++ (k ++ (v ++ rest2))) := by
    simp [logRecord, valLenBytes, be4, List.append_assoc]
  have hlen4 : (beBytes 4 k.length).length = 4 := beBytes_length 4 _
  have htake4 : (logRecord k (some v) ++ rest2).take 4 = beBytes 4 k.length := by
    rw [hgrp]
    exact List.take_left' hlen4
  have hdrop4 : (logRecord k (some v) ++ rest2).drop 4 =
      beBytes 4 v.length ++ (k ++ (v ++ rest2)) := by
    rw [hgrp]
    exact List.drop_left' hlen4
  have hdt4 : ((logRecord k (some v) ++ rest2).drop 4).take 4 = beBytes 4 v.length := by
    rw [hdrop4]
    exact List.take_left' (beBytes_length 4 v.length)
  have hdrop8 : (logRecord k (some v) ++ rest2).drop 8 = k ++ (v ++ rest2) := by
    rw [show (8 : Nat) = 4 + 4 from rfl, ← List.drop_drop, hdrop4]
    exact List.drop_left' (beBytes_length 4 v.length)
  have hlenbs : (logRecord k (some v) ++ rest2).length =
      8 + k.length + v.length + rest2.length := by
    simp only [List.length_append, logRecord_length, Option.getD_some]
  have h0 : logRecord k (some v) ++ rest2 ≠ [] := by
    intro h
    have := congrArg List.length h
    rw [hlenbs] at this
    simp at this
  have h8 : 8 ≤ (logRecord k (some v) ++ rest2).length := by
    rw [hlenbs]; omega
  have hbk : beVal ((logRecord k (some v) ++ rest2).take 4) = k.length := by
    rw [htake4, beVal_beBytes, Nat.mod_eq_of_lt hklt]
  have hbv : beVal (((logRecord k (some v) ++ rest2).drop 4).take 4) = v.length := by
    rw [hdt4, beVal_beBytes, Nat.mod_eq_of_lt hvlt]
  have htomb : ¬(((logRecord k (some v) ++ rest2).drop 4).take 4
      = [255, 255, 255, 255]) := by
    intro h
    have h1 := congrArg beVal h
    rw [hbv] at h1
    have h2 : beVal [255, 255, 255, 255] = 4294967295 := by decide
    rw [h2] at h1
    have h3 : (2 : Nat) ^ 31 = 2147483648 := by norm_num
    rw [h3] at hv
    omega
  have hrange : beVal ((logRecord k (some v) ++ rest2).take 4) +
      beVal (((logRecord k (some v) ++ rest2).drop 4).take 4) ≤
      ((logRecord k (some v) ++ rest2).drop 8).length := by
    rw [hbk, hbv, hdrop8]
    simp only [List.length_append]
    omega
  simp only [parseLogAux]
  rw [if_neg h0, if_pos h8, if_neg htomb, if_pos hrange, hbk, hbv, hdrop8,
    List.drop_left, List.take_left, List.drop_left, List.take_left, hrec]
  rfl

theorem length_le_recordsOf (file : Bytes) :
    ∀ d : List (Bytes × Nat × Nat), d.length ≤ (recordsOf file d).length := by
  intro d
  induction d with
  | nil => simp [recordsOf]
  | cons ent rest ih =>
    obtain ⟨k, o, l⟩ := ent
    simp only [recordsOf, List.length_cons, List.length_append, logRecord_length,
      Option.getD_some]
    omega

/-- The compacted log parses back into exactly one Some record per
index entry, in index order. -/
theorem parseLog_recordsOf (file : Bytes) :
    ∀ (d : List (Bytes × Nat × Nat)) (fuel : Nat), d.length ≤ fuel →
    (∀ ent ∈ d, ent.2.1 + ent.2.2 ≤ file.length ∧ ent.1.length < 2 ^ 31 ∧
      ent.2.2 < 2 ^ 31) →
    parseLogAux fuel (recordsOf file d) =
      some (d.map (fun ent => (ent.1, some ((file.drop ent.2.1).take ent.2.2)))) := by
  intro d
  induction d with
  | nil => intro fuel _ _; exact parseLogAux_nil fuel
  | cons ent rest ih =>
    intro fuel hfuel hb
    obtain ⟨k, o, l⟩ := ent
    cases fuel with
    | zero => simp at hfuel
    | succ fuel =>
      obtain ⟨hol, hkl, hll⟩ := hb (k, o, l) (List.mem_cons_self _ _)
      have hol2 : o + l ≤ file.length := hol
      have hvl : ((file.drop o).take l).length = l := by
        rw [List.length_take, List.length_drop]
        omega
      have hnext := ih fuel (by simp only [List.length_cons] at hfuel; omega)
        (fun e2 he => hb e2 (List.mem_cons_of_mem _ he))
      have := parseLogAux_record fuel k ((file.drop o).take l) (recordsOf file rest)
        _ hkl (by rw [hvl]; exact hll) hnext
      simpa [recordsOf] using this

theorem wfDisk_of_reachable {e : DiskEngine} (h : DiskReachable e) : WfDisk e := by
  induction h with
  | init =>
    exact ⟨List.Pairwise.nil, fun ent hent => absurd hent (List.not_mem_nil ent)⟩
  | set e2 key value hk hv _ ih =>
    refine ⟨storeSet_sorted ih.sorted _ _, ?_⟩
    intro ent hent
    rcases mem_storeSet _ _ _ ent hent with h2 | h2
    · obtain ⟨h3, h4, h5⟩ := ih.bounds ent h2
      refine ⟨?_, h4, h5⟩
      simp only [diskSet, List.length_append]
      omega
    · subst h2
      refine ⟨?_, hk, hv⟩
      simp only [diskSet, List.length_append, logRecord_length, Option.getD_some]
      omega
  | del e2 key _ ih =>
    refine ⟨storeDelete_sorted ih.sorted _, ?_⟩
    intro ent hent
    have hmem : ent ∈ e2.key_dir := List.mem_of_mem_filter hent
    obtain ⟨h3, h4, h5⟩ := ih.bounds ent hmem
    refine ⟨?_, h4, h5⟩
    simp only [diskDelete, List.length_append]
    omega

/-- The compaction loop: it succeeds, appends exactly the live records
to the new log, keeps the key set, and the new index reads back the old
live values. -/
theorem compactLoop_spec (file : Bytes) :
    ∀ (d : List (Bytes × Nat × Nat)) (nf : Bytes) (nd : List (Bytes × Nat × Nat)),
    (∀ ent ∈ d, ent.2.1 + ent.2.2 ≤ file.length) →
    StoreSorted d →
    (∀ ed ∈ nd, ∀ ent ∈ d, bytesCmp ed.1 ent.1 = .lt) →
    ∃ nd2,
      compactLoop file d nf nd = .ok (nf ++ recordsOf file d, nd ++ nd2) ∧
      nd2.map Prod.fst = d.map Prod.fst ∧
      diskScanLoop (nf ++ recordsOf file d) nd2 =
        .ok (d.map (fun ent => (ent.1, (file.drop ent.2.1).take ent.2.2))) := by
  intro d
  induction d with
  | nil =>
    intro nf nd _ _ _
    exact ⟨[], by simp [compactLoop, recordsOf], rfl, by simp [recordsOf, diskScanLoop]⟩
  | cons ent rest ih =>
    intro nf nd hb hsort hlt
    obtain ⟨k, o, l⟩ := ent
    have hol : o + l ≤ file.length := hb (k, o, l) (List.mem_cons_self _ _)
    have hvl : ((file.drop o).take l).length = l := by
      rw [List.length_take, List.length_drop]
      omega
    have hrv : readValue file o l = some ((file.drop o).take l) := by
      unfold readValue
      rw [if_pos hol]
    have hset : storeSet nd k
        (nf.length + (8 + k.length + ((file.drop o).take l).length) - l, l) =
        nd ++ [(k, nf.length + (8 + k.length + ((file.drop o).take l).length) - l, l)] :=
      storeSet_append nd k _ (fun e2 he => hlt e2 he (k, o, l) (List.mem_cons_self _ _))
    have hb2 : ∀ e2 ∈ rest, e2.2.1 + e2.2.2 ≤ file.length :=
      fun e2 he => hb e2 (List.mem_cons_of_mem _ he)
    have hsort2 : StoreSorted rest := List.Pairwise.of_cons hsort
    have hlt2 : ∀ ed ∈ nd ++ [(k, nf.length + (8 + k.length +
        ((file.drop o).take l).length) - l, l)], ∀ e2 ∈ rest,
        bytesCmp ed.1 e2.1 = .lt := by
      intro ed hed e2 he2
      rcases List.mem_append.mp hed with h | h
      · exact hlt ed h e2 (List.mem_cons_of_mem _ he2)
      · simp only [List.mem_singleton] at h
        subst h
        exact (List.pairwise_cons.mp hsort).1 e2 he2
    obtain ⟨nd2, hcl, hkeys, hscan⟩ := ih (nf ++ logRecord k (some ((file.drop o).take l)))
      (nd ++ [(k, nf.length + (8 + k.length + ((file.drop o).take l).length) - l, l)])
      hb2 hsort2 hlt2
    refine ⟨(k, nf.length + (8 + k.length + ((file.drop o).take l).length) - l, l) :: nd2,
      ?_, ?_, ?_⟩
    · show compactLoop file ((k, o, l) :: rest) nf nd = _
      simp only [compactLoop, hrv, hset]
      rw [hcl]
      simp [recordsOf, List.append_assoc]
    · simp [hkeys]
    · have hoff : nf.length + (8 + k.length + ((file.drop o).take l).length) - l =
          nf.length + 8 + k.length := by
        rw [hvl]
        omega
      rw [show nf ++ recordsOf file ((k, o, l) :: rest) =
          (nf ++ logRecord k (some ((file.drop o).take l))) ++ recordsOf file rest from by
        simp [recordsOf, List.append_assoc]]
      simp only [diskScanLoop]
      rw [hoff, readValue_newRecord nf k ((file.drop o).take l) (recordsOf file rest) l hvl,
        hscan]
      rfl

/-- C7: compacting any reachable disk engine succeeds, leaves the full
scan output byte-for-byte unchanged, and the new log parses into
exactly one non-tombstone record per live key, in key order, with no
duplicate keys. -/
theorem claimC7_compact (e : DiskEngine) (hr : DiskReachable e) :
    ∃ e2, diskCompact e = .ok e2 ∧
      diskScanAll e2 = diskScanAll e ∧
      ∃ out, diskScanAll e = .ok out ∧
        parseLog e2.file = some (out.map (fun p => (p.1, some p.2))) ∧
        (e2.key_dir.map Prod.fst).Nodup ∧
        e2.key_dir.map Prod.fst = e.key_dir.map Prod.fst := by
  have hwf := wfDisk_of_reachable hr
  have hb : ∀ ent ∈ e.key_dir, ent.2.1 + ent.2.2 ≤ e.file.length :=
    fun ent hent => (hwf.bounds ent hent).1
  obtain ⟨nd2, hcl, hkeys, hscan⟩ := compactLoop_spec e.file e.key_dir [] []
    hb hwf.sorted (fun ed hed => absurd hed (List.not_mem_nil ed))
  rw [List.nil_append, List.nil_append] at hcl
  rw [List.nil_append] at hscan
  refine ⟨⟨recordsOf e.file e.key_dir, nd2⟩, ?_, ?_, ?_⟩
  · simp only [diskCompact, hcl]
  · show diskScanLoop (recordsOf e.file e.key_dir) nd2 = diskScanAll e
    rw [hscan]
    exact (diskScanLoop_ok e.file e.key_dir hb).symm
  · refine ⟨e.key_dir.map (fun ent => (ent.1, (e.file.drop ent.2.1).take ent.2.2)),
      ?_, ?_, ?_, hkeys⟩
    · exact diskScanLoop_ok e.file e.key_dir hb
    · show parseLogAux (recordsOf e.file e.key_dir).length (recordsOf e.file e.key_dir) = _
      rw [parseLog_recordsOf e.file e.key_dir (recordsOf e.file e.key_dir).length
        (length_le_recordsOf e.file e.key_dir) hwf.bounds]
      rw [List.map_map]
      rfl
    · show (nd2.map Prod.fst).Nodup
      rw [hkeys]
      exact storeSorted_keys_nodup hwf.sorted

theorem claimC7_compact_witness :
    ∃ e2, diskCompact (diskSet ⟨[], []⟩ [1] [2]) = .ok e2 ∧
      diskScanAll e2 = diskScanAll (diskSet ⟨[], []⟩ [1] [2]) ∧
      ∃ out, diskScanAll (diskSet ⟨[], []⟩ [1] [2]) = .ok out ∧
        parseLog e2.file = some (out.map (fun p => (p.1, some p.2))) ∧
        (e2.key_dir.map Prod.fst).Nodup ∧
        e2.key_dir.map Prod.fst = (diskSet ⟨[], []⟩ [1] [2]).key_dir.map Prod.fst :=
  claimC7_compact (diskSet ⟨[], []⟩ [1] [2])
    (DiskReachable.set ⟨[], []⟩ [1] [2] (by decide) (by decide) DiskReachable.init)

/-
## SQL layer: types, schema validation and CREATE TABLE normalization
(src/sql/types/mod.rs, src/sql/schema.rs, src/sql/planner/planner.rs)

Floats are idealized as rationals; none of the properties checked here
depend on floating-point rounding.
-/

inductive DataType where
  | boolean
  | integer
  | float
  | string
deriving DecidableEq

inductive Value where
  | null
  | boolean (b : Bool)
  | integer (i : Int)
  | float (q : Rat)
  | string (s : String)
deriving DecidableEq

def Value.get_datatype : Value → Option DataType
  | .null => none
  | .boolean _ => some .boolean
  | .integer _ => some .integer
  | .float _ => some .float
  | .string _ => some .string

inductive Consts where
  | null
  | boolean (b : Bool)
  | integer (i : Int)
  | float (q : Rat)
  | string (s : String)
deriving DecidableEq

/-- Constant expressions (the only expression shape a column default
reaches in from_expression_to_value). -/
inductive Expression where
  | consts (c : Consts)
deriving DecidableEq

def Value.from_expression_to_value : Expression → Value
  | .consts .null => .null
  | .consts (.boolean b) => .boolean b
  | .consts (.integer i) => .integer i
  | .consts (.float q) => .float q
  | .consts (.string s) => .string s

structure Column where
  name : String
  datatype : DataType
  nullable : Bool
  default : Option Value
  is_primary_key : Bool
  is_index : Bool

structure Table where
  name : String
  columns : List Column

/-- The per-column checks of Table::is_valid: a primary key must not be
nullable, and a default whose runtime type is known must match the
declared type (a Null default has no runtime type and is skipped). -/
def columnCheck (c : Column) : Except DbError Unit :=
  if c.is_primary_key && c.nullable then .error .internal
  else
    match c.default with
    | some d =>
      match d.get_datatype with
      | some dt => if dt ≠ c.datatype then .error .internal else .ok ()
      | none => .ok ()
    | none => .ok ()

def columnsCheck : List Column → Except DbError Unit
  | [] => .ok ()
  | c :: rest =>
    match columnCheck c with
    | .ok _ => columnsCheck rest
    | .error e => .error e

/-- Table::is_valid. -/
def Table.is_valid (t : Table) : Except DbError Unit :=
  if t.columns.isEmpty then .error .internal
  else
    match (t.columns.filter (fun c => c.is_primary_key)).length with
    | 1 => columnsCheck t.columns
    | _ => .error .internal

/-- A column of the parsed CREATE TABLE AST (ast::Column). -/
structure AstColumn where
  name : String
  datatype : DataType
  nullable : Option Bool
  default : Option Expression
  is_primary_key : Bool
  is_index : Bool

/-- The planner normalization of one CREATE TABLE column
(Planner::build_sentence): nullable defaults to the negation of
is_primary_key, a missing default becomes Null exactly when nullable,
and is_index is cleared on the primary key. -/
def normalizeColumn (c : AstColumn) : Column :=
  { name := c.name,
    datatype := c.datatype,
    nullable := c.nullable.getD (!c.is_primary_key),
    default :=
      match c.default with
      | some expression => some (Value.from_expression_to_value expression)
      | none => if c.nullable.getD (!c.is_primary_key) then some Value.null else none,
    is_primary_key := c.is_primary_key,
    is_index := c.is_index && !c.is_primary_key }

/-- Validity as implemented (and as amended for the spec): a Null
default is always accepted because it has no runtime type. -/
def ValidAmended (t : Table) : Prop :=
  t.columns ≠ [] ∧
  (t.columns.filter (fun c => c.is_primary_key)).length = 1 ∧
  ∀ c ∈ t.columns, (c.is_primary_key = true → c.nullable = false) ∧
    ∀ d, c.default = some d → ∀ dt, d.get_datatype = some dt → dt = c.datatype

/-- Validity as claimed by the spec: a Null default is permitted only
when the column is nullable. -/
def ValidClaimed (t : Table) : Prop :=
  t.columns ≠ [] ∧
  (t.columns.filter (fun c => c.is_primary_key)).length = 1 ∧
  ∀ c ∈ t.columns, (c.is_primary_key = true → c.nullable = false) ∧
    ∀ d, c.default = some d →
      (d.get_datatype = some c.datatype ∨ (d = Value.null ∧ c.nullable = true))

theorem columnCheck_ok_iff (c : Column) :
    columnCheck c = .ok () ↔
      ((c.is_primary_key = true → c.nullable = false) ∧
        ∀ d, c.default = some d → ∀ dt, d.get_datatype = some dt → dt = c.datatype) := by
  by_cases h1 : (c.is_primary_key && c.nullable) = true
  · have hc : columnCheck c = .error .internal := by
      unfold columnCheck
      rw [if_pos h1]
    rw [hc]
    simp only [Bool.and_eq_true] at h1
    constructor
    · intro h; cases h
    · rintro ⟨hpk, _⟩
      rw [hpk h1.1] at h1
      cases h1.2
  · have hnn : c.is_primary_key = true → c.nullable = false := by
      intro hpk
      cases hnul : c.nullable
      · rfl
      · exact absurd (by rw [hpk, hnul]; rfl : (c.is_primary_key && c.nullable) = true) h1
    cases hd : c.default with
    | none =>
      have hc : columnCheck c = .ok () := by
        unfold columnCheck
        rw [if_neg h1, hd]
      rw [hc]
      constructor
      · intro _
        exact ⟨hnn, fun d2 hdd => by cases hdd⟩
      · intro _
        rfl
    | some d =>
      cases hdt : d.get_datatype with
      | none =>
        have hc : columnCheck c = .ok () := by
          unfold columnCheck
          rw [if_neg h1, hd]
          show (match d.get_datatype with
            | some dt2 => if dt2 ≠ c.datatype then Except.error DbError.internal
              else Except.ok ()
            | none => Except.ok ()) = Except.ok ()
          rw [hdt]
        rw [hc]
        constructor
        · intro _
          refine ⟨hnn, fun d2 hdd dt2 hdt2 => ?_⟩
          cases hdd
          rw [hdt] at hdt2
          cases hdt2
        · intro _
          rfl
      | some dt =>
        by_cases heq : dt = c.datatype
        · have hc : columnCheck c = .ok () := by
            unfold columnCheck
            rw [if_neg h1, hd]
            show (match d.get_datatype with
              | some dt2 => if dt2 ≠ c.datatype then Except.error DbError.internal
                else Except.ok ()
              | none => Except.ok ()) = Except.ok ()
            rw [hdt]
            show (if dt ≠ c.datatype then Except.error DbError.internal
              else Except.ok ()) = Except.ok ()
            rw [if_neg (by simp [heq])]
          rw [hc]
          constructor
          · intro _
            refine ⟨hnn, fun d2 hdd dt2 hdt2 => ?_⟩
            cases hdd
            rw [hdt] at hdt2
            cases hdt2
            exact heq
          · intro _
            rfl
        · have hc : columnCheck c = .error .internal := by
            unfold columnCheck
            rw [if_neg h1, hd]
            show (match d.get_datatype with
              | some dt2 => if dt2 ≠ c.datatype then Except.error DbError.internal
                else Except.ok ()
              | none => Except.ok ()) = Except.error DbError.internal
            rw [hdt]
            show (if dt ≠ c.datatype then Except.error DbError.internal
              else Except.ok ()) = Except.error DbError.internal
            rw [if_pos (by simp [heq])]
          rw [hc]
          constructor
          · intro h; cases h
          · rintro ⟨_, hdef⟩
            exact absurd (hdef d rfl dt hdt) heq

theorem columnsCheck_ok_iff : ∀ cols : List Column,
    columnsCheck cols = .ok () ↔ ∀ c ∈ cols, columnCheck c = .ok () := by
  intro cols
  induction cols with
  | nil => simp [columnsCheck]
  | cons c rest ih =>
    simp only [columnsCheck]
    cases hc : columnCheck c with
    | ok u =>
      cases u
      simp [List.forall_mem_cons, hc, ih]
    | error e =>
      simp [List.forall_mem_cons, hc]

theorem is_valid_ok_iff (t : Table) : t.is_valid = .ok () ↔ ValidAmended t := by
  unfold Table.is_valid ValidAmended
  by_cases he : t.columns.isEmpty
  · rw [if_pos he]
    have hnil : t.columns = [] := List.isEmpty_iff.mp he
    constructor
    · intro h; cases h
    · rintro ⟨hne, _⟩
      exact absurd hnil hne
  · rw [if_neg he]
    have hne : t.columns ≠ [] := by
      intro h
      exact he (by rw [h]; rfl)
    cases hcount : (t.columns.filter (fun c => c.is_primary_key)).length with
    | zero =>
      constructor
      · intro h; cases h
      · rintro ⟨_, hc, _⟩
        cases hc
    | succ n =>
      cases n with
      | zero =>
        constructor
        · intro h
          refine ⟨hne, rfl, ?_⟩
          have h2 : columnsCheck t.columns = .ok () := h
          intro c hc
          exact (columnCheck_ok_iff c).mp ((columnsCheck_ok_iff t.columns).mp h2 c hc)
        · rintro ⟨_, _, hcols⟩
          show columnsCheck t.columns = .ok ()
          exact (columnsCheck_ok_iff t.columns).mpr
            (fun c hc => (columnCheck_ok_iff c).mpr (hcols c hc))
      | succ m =>
        constructor
        · intro h; cases h
        · rintro ⟨_, hc, _⟩
          exact absurd hc (by omega)

/-- C8 (corrected): for every CREATE TABLE statement, after planner
normalization create_table's validity check succeeds exactly when the
normalized table has a non-empty column list, exactly one primary-key
column, no nullable primary key, and every default with a known runtime
type matching the declared column type — a Null default is always
accepted, also on non-nullable columns (contrary to the claim, which
permits Null only on nullable columns; see the counterexample). -/
theorem claimC8_create_table_validation (name : String) (cols : List AstColumn) :
    (Table.mk name (cols.map normalizeColumn)).is_valid = .ok () ↔
      ValidAmended (Table.mk name (cols.map normalizeColumn)) :=
  is_valid_ok_iff (Table.mk name (cols.map normalizeColumn))

def ceColA : AstColumn :=
  { name := "a", datatype := .integer, nullable := none, default := none,
    is_primary_key := true, is_index := false }

def ceColB : AstColumn :=
  { name := "b", datatype := .integer, nullable := some false,
    default := some (.consts .null), is_primary_key := false, is_index := false }

/-- C8 counterexample to the claim as stated: the normalization of
CREATE TABLE t (a int primary key, b int not null default null) passes
Table::is_valid — Null's runtime type is None, so the default type
check is skipped even on the non-nullable column b — while the claimed
validity predicate (Null permitted only when nullable) rejects it. -/
theorem claimC8_counterexample :
    (Table.mk "t" ([ceColA, ceColB].map normalizeColumn)).is_valid = .ok () ∧
    ¬ ValidClaimed (Table.mk "t" ([ceColA, ceColB].map normalizeColumn)) := by
  constructor
  · rfl
  · intro h
    obtain ⟨_, _, hcols⟩ := h
    have hb := hcols (normalizeColumn ceColB)
      (List.mem_cons_of_mem _ (List.mem_cons_self _ _))
    obtain ⟨_, hdef⟩ := hb
    rcases hdef Value.null rfl with h1 | ⟨_, h2⟩
    · cases h1
    · cases h2

/-
## Join executors (src/sql/executor/join.rs, src/sql/parser/ast.rs)
-/

/-- The fragment of ast::Expression reachable in a join condition: a
column reference (Field), a constant, or an equality
(Operation::Equal). -/
inductive AstExpr where
  | field (col : String)
  | consts (c : Consts)
  | equal (l r : AstExpr)

/-- parse_join_condition: extract the two column names of an equality
condition (a failing unwrap of a nested result is modeled as none). -/
def parse_join_condition : Option AstExpr → Option (String × String)
  | some (.field col) => some (col, "")
  | some (.equal c1 c2) =>
    match parse_join_condition (some c1), parse_join_condition (some c2) with
    | some l, some r => some (l.1, r.1)
    | _, _ => none
  | some _ => none
  | none => none

/-- The Equal arm of expression evaluation: typed pairs compare by
value, a Null on either side yields Null, mixed types are an error. -/
def valueEqual : Value → Value → Except DbError Value
  | .boolean l, .boolean r => .ok (.boolean (l == r))
  | .integer l, .integer r => .ok (.boolean (l == r))
  | .integer l, .float r => .ok (.boolean ((l : Rat) == r))
  | .float l, .integer r => .ok (.boolean (l == (r : Rat)))
  | .float l, .float r => .ok (.boolean (l == r))
  | .string l, .string r => .ok (.boolean (l == r))
  | .null, _ => .ok .null
  | _, .null => .ok .null
  | _, _ => .error .internal

/-- ast::parse_expression on rows: a Field reads the named column of
the first row, Equal evaluates its right side with the column/row pairs
swapped. -/
def parse_expression (left_cols : List String) (left_row : List Value)
    (right_cols : List String) (right_row : List Value) :
    AstExpr → Except DbError Value
  | .field col =>
    match left_cols.findIdx? (fun c => c == col) with
    | some pos => .ok (left_row.getD pos Value.null)
    | none => .error .internal
  | .consts c =>
    .ok (match c with
      | .null => Value.null
      | .boolean b => Value.boolean b
      | .integer i => Value.integer i
      | .float q => Value.float q
      | .string s => Value.string s)
  | .equal l r =>
    match parse_expression left_cols left_row right_cols right_row l with
    | .error e => .error e
    | .ok lv =>
      match parse_expression right_cols right_row left_cols left_row r with
      | .error e => .error e
      | .ok rv => valueEqual lv rv

/-- One left row of HashJoin::execute: the hash map groups right rows
by the join-key Value under derived equality (so Null keys collide),
and an unmatched left row is Null-padded only on an outer join. -/
def hashJoinRow (right_rows : List (List Value)) (left_pos right_pos rlen : Nat)
    (outer : Bool) (lrow : List Value) : List (List Value) :=
  let ms := right_rows.filter
    (fun rrow => rrow.getD right_pos Value.null == lrow.getD left_pos Value.null)
  if ms.isEmpty then
    if outer then [lrow ++ List.replicate rlen Value.null] else []
  else
    ms.map (fun rrow => lrow ++ rrow)

def hashJoinExec (left_rows right_rows : List (List Value))
    (left_pos right_pos rlen : Nat) (outer : Bool) : List (List Value) :=
  (left_rows.map (hashJoinRow right_rows left_pos right_pos rlen outer)).flatten

/-- The inner loop of NestedLoopJoin::execute for one left row: a Null
or false condition value skips the pair, true joins it, anything else
is an error. -/
def nestedLoopMatches (condition : AstExpr) (left_cols : List String)
    (lrow : List Value) (right_cols : List String) :
    List (List Value) → Except DbError (List (List Value))
  | [] => .ok []
  | rrow :: rest =>
    match parse_expression left_cols lrow right_cols rrow condition with
    | .error e => .error e
    | .ok Value.null => nestedLoopMatches condition left_cols lrow right_cols rest
    | .ok (Value.boolean false) => nestedLoopMatches condition left_cols lrow right_cols rest
    | .ok (Value.boolean true) =>
      (nestedLoopMatches condition left_cols lrow right_cols rest).map
        (fun t => (lrow ++ rrow) :: t)
    | .ok _ => .error .internal

def nestedLoopJoinExec (condition : AstExpr) (left_cols right_cols : List String)
    (right_rows : List (List Value)) (outer : Bool) :
    List (List Value) → Except DbError (List (List Value))
  | [] => .ok []
  | lrow :: rest =>
    match nestedLoopMatches condition left_cols lrow right_cols right_rows with
    | .error e => .error e
    | .ok ms =>
      match nestedLoopJoinExec condition left_cols right_cols right_rows outer rest with
      | .error e => .error e
      | .ok acc =>
        .ok ((if outer && ms.isEmpty
          then ms ++ [lrow ++ List.replicate right_cols.length Value.null]
          else ms) ++ acc)

/-- C9: with a Null join key on the left row and Null join keys on the
right rows, HashJoin emits a joined row for every right row, although
the equality condition evaluates to Null on each such pair, so
NestedLoopJoin emits none of them (only the Null-padded left row when
the join is outer). -/
theorem claimC9_hash_join_null_keys
    (left_cols right_cols : List String) (lcol rcol : String)
    (left_pos right_pos : Nat)
    (hlp : left_cols.findIdx? (fun c => c == lcol) = some left_pos)
    (hrp : right_cols.findIdx? (fun c => c == rcol) = some right_pos)
    (lrow : List Value) (right_rows : List (List Value)) (outer : Bool)
    (hne : right_rows ≠ [])
    (hln : lrow.getD left_pos Value.null = Value.null)
    (hrn : ∀ rrow ∈ right_rows, rrow.getD right_pos Value.null = Value.null) :
    parse_join_condition (some (.equal (.field lcol) (.field rcol))) = some (lcol, rcol) ∧
    hashJoinExec [lrow] right_rows left_pos right_pos right_cols.length outer =
      right_rows.map (fun rrow => lrow ++ rrow) ∧
    (∀ rrow ∈ right_rows,
      parse_expression left_cols lrow right_cols rrow
        (.equal (.field lcol) (.field rcol)) = .ok Value.null) ∧
    nestedLoopJoinExec (.equal (.field lcol) (.field rcol)) left_cols right_cols
        right_rows outer [lrow] =
      .ok (if outer then [lrow ++ List.replicate right_cols.length Value.null] else []) := by
  have hfilter : right_rows.filter
      (fun rrow => rrow.getD right_pos Value.null == lrow.getD left_pos Value.null) =
      right_rows := by
    rw [List.filter_eq_self]
    intro rrow hrw
    rw [hrn rrow hrw, hln]
    decide
  have heval : ∀ rrow ∈ right_rows,
      parse_expression left_cols lrow right_cols rrow
        (.equal (.field lcol) (.field rcol)) = .ok Value.null := by
    intro rrow hrw
    simp only [parse_expression, hlp, hrp, hln, hrn rrow hrw]
    rfl
  refine ⟨?_, ?_, heval, ?_⟩
  · simp [parse_join_condition]
  · obtain ⟨r0, rs, rfl⟩ := List.exists_cons_of_ne_nil hne
    have hexec : hashJoinExec [lrow] (r0 :: rs) left_pos right_pos right_cols.length outer
        = hashJoinRow (r0 :: rs) left_pos right_pos right_cols.length outer lrow ++ [] :=
      rfl
    rw [hexec, List.append_nil]
    show (if ((r0 :: rs).filter
        (fun rrow => rrow.getD right_pos Value.null == lrow.getD left_pos Value.null)).isEmpty
      then (if outer then [lrow ++ List.replicate right_cols.length Value.null] else [])
      else ((r0 :: rs).filter
        (fun rrow => rrow.getD right_pos Value.null == lrow.getD left_pos Value.null)).map
          (fun rrow => lrow ++ rrow)) = (r0 :: rs).map (fun rrow => lrow ++ rrow)
    rw [hfilter]
    rfl
  · have hms : nestedLoopMatches (.equal (.field lcol) (.field rcol)) left_cols lrow
        right_cols right_rows = .ok [] := by
      clear hfilter hne
      induction right_rows with
      | nil => rfl
      | cons r0 rs ih =>
        simp only [nestedLoopMatches, heval r0 (List.mem_cons_self _ _)]
        exact ih (fun rrow hrw => hrn rrow (List.mem_cons_of_mem _ hrw))
          (fun rrow hrw => heval rrow (List.mem_cons_of_mem _ hrw))
    simp only [nestedLoopJoinExec, hms]
    cases outer <;> rfl

theorem claimC9_hash_join_null_keys_witness :
    List.findIdx? (fun c => c == "a") ["a"] = some 0 ∧
    List.findIdx? (fun c => c == "b") ["b"] = some 0 ∧
    ([[Value.null]] : List (List Value)) ≠ [] ∧
    [Value.null].getD 0 Value.null = Value.null ∧
    (∀ rrow ∈ ([[Value.null]] : List (List Value)),
      rrow.getD 0 Value.null = Value.null) ∧
    (parse_join_condition (some (.equal (.field "a") (.field "b"))) = some ("a", "b") ∧
      hashJoinExec [[Value.null]] [[Value.null]] 0 0 (["b"] : List String).length false =
        [[Value.null]].map (fun rrow => [Value.null] ++ rrow) ∧
      (∀ rrow ∈ ([[Value.null]] : List (List Value)),
        parse_expression ["a"] [Value.null] ["b"] rrow
          (.equal (.field "a") (.field "b")) = .ok Value.null) ∧
      nestedLoopJoinExec (.equal (.field "a") (.field "b")) ["a"] ["b"]
          [[Value.null]] false [[Value.null]] =
        .ok (if false
          then [[Value.null] ++ List.replicate (["b"] : List String).length Value.null]
          else [])) :=
  ⟨by decide, by decide, by decide, rfl, by decide,
    claimC9_hash_join_null_keys ["a"] ["b"] "a" "b" 0 0 (by decide) (by decide)
      [Value.null] [[Value.null]] false (by decide) rfl (by decide)⟩

/-
## Row storage (src/sql/engine/kv.rs)

Rows live under Key::Row(table_name, primary_key); the key codec is
injective on (name, value) pairs, so the row store is modeled as a map
keyed by them directly.
-/

abbrev RowStore := List ((String × Value) × List Value)

def rowsGet : RowStore → (String × Value) → Option (List Value)
  | [], _ => none
  | (k2, v) :: rest, k => if k = k2 then some v else rowsGet rest k

def rowsSet : RowStore → (String × Value) → List Value → RowStore
  | [], k, v => [(k, v)]
  | (k2, v2) :: rest, k, v =>
    if k = k2 then (k, v) :: rest else (k2, v2) :: rowsSet rest k v

def rowsDelete (s : RowStore) (k : String × Value) : RowStore :=
  s.filter (fun e => decide (e.1 ≠ k))

/-- Table::get_primary_key: the row value at the position of the
primary-key column (the unwrap and the row indexing are modeled as
Option). -/
def Table.get_primary_key (t : Table) (row : List Value) : Option Value :=
  match t.columns.findIdx? (fun c => c.is_primary_key) with
  | some i => row.get? i
  | none => none

/-- The per-column type check of create_row. -/
def checkColumnValue (col : Column) (v : Value) : Except DbError Unit :=
  match v.get_datatype with
  | none => if col.nullable then .ok () else .error .internal
  | some dt => if dt ≠ col.datatype then .error .internal else .ok ()

def checkRow : List Column → List Value → Except DbError Unit
  | [], _ => .ok ()
  | col :: cols, v :: vs =>
    match checkColumnValue col v with
    | .ok _ => checkRow cols vs
    | .error e => .error e
  | _ :: _, [] => .error .internal

/-- KVTransaction::create_row: type-check the row, then refuse to write
when a row under the same primary key already exists. -/
def create_row (t : Table) (s : RowStore) (row : List Value) :
    Except DbError RowStore :=
  match checkRow t.columns row with
  | .error e => .error e
  | .ok _ =>
    match t.get_primary_key row with
    | none => .error .internal
    | some pk =>
      if (rowsGet s (t.name, pk)).isSome then .error .internal
      else .ok (rowsSet s (t.name, pk) row)

/-- KVTransaction::update_row: when the primary key changed, delete the
old key and write under the new one — with no check that the new key is
free. -/
def update_row (t : Table) (s : RowStore) (primary_key : Value) (row : List Value) :
    Except DbError RowStore :=
  match t.get_primary_key row with
  | none => .error .internal
  | some new_pk =>
    .ok (rowsSet (if new_pk ≠ primary_key then rowsDelete s (t.name, primary_key) else s)
      (t.name, new_pk) row)

def tC10 : Table :=
  { name := "t",
    columns :=
      [{ name := "id", datatype := .integer, nullable := false, default := none,
         is_primary_key := true, is_index := false },
       { name := "val", datatype := .string, nullable := false, default := none,
         is_primary_key := false, is_index := false }] }

def s0C10 : RowStore :=
  [(("t", Value.integer 1), [Value.integer 1, Value.string "x"]),
   (("t", Value.integer 2), [Value.integer 2, Value.string "y"])]

/-- C10: on a table state holding rows with primary keys 1 and 2, an
UPDATE that rewrites the key-1 row to primary key 2 succeeds and
silently replaces the pre-existing key-2 row — update_row performs no
existence check on the new key — while create_row on the same row fails
with a primary-key conflict. -/
theorem claimC10_update_row_pk_overwrite :
    rowsGet s0C10 ("t", Value.integer 2) = some [Value.integer 2, Value.string "y"] ∧
    (∃ s2, update_row tC10 s0C10 (Value.integer 1)
        [Value.integer 2, Value.string "x"] = .ok s2 ∧
      rowsGet s2 ("t", Value.integer 1) = none ∧
      rowsGet s2 ("t", Value.integer 2) = some [Value.integer 2, Value.string "x"]) ∧
    create_row tC10 s0C10 [Value.integer 2, Value.string "x"] =
      .error DbError.internal := by
  exact ⟨by decide, ⟨rowsSet (rowsDelete s0C10 ("t", Value.integer 1))
    ("t", Value.integer 2) [Value.integer 2, Value.string "x"], rfl, by decide, by decide⟩,
    rfl⟩

end SqlDb
